import Mathlib

set_option maxRecDepth 8000

/-!
Verification development for the ingestion-and-retrieval pipeline of a
retrieval-augmented chat application (document chunking, resumable embedding,
scoped retrieval, SSE answer streaming, and the client stream consumer).

Strings are modelled as `List Char`; the JavaScript string operations used by
the source (`split`, `slice`, `trim`, `lastIndexOf`, `startsWith`) are defined
below with their JavaScript semantics.
-/

namespace RagPipeline

/-- JavaScript whitespace (the ASCII part relevant to this corpus): the
characters removed by `String.prototype.trim` and matched by `\s`. -/
def isJsWs (c : Char) : Bool :=
  c = ' ' || c = '\t' || c = '\n' || c = '\r' || c = '\x0b' || c = '\x0c'

/-- Drop the longest suffix whose characters satisfy `p`. -/
def dropTrail (p : Char → Bool) (s : List Char) : List Char :=
  (s.reverse.dropWhile p).reverse

/-- JavaScript `s.trim()`. -/
def jsTrim (s : List Char) : List Char :=
  dropTrail isJsWs (s.dropWhile isJsWs)

/-- JavaScript `"a\nb".split("\n")` : split on newline, keeping empty pieces
(so the empty string splits to one empty piece). -/
def splitOnNl : List Char → List (List Char)
  | [] => [[]]
  | c :: rest =>
    if c = '\n' then [] :: splitOnNl rest
    else
      match splitOnNl rest with
      | [] => [[c]]
      | l :: ls => (c :: l) :: ls

/-- JavaScript `s.lastIndexOf(pat)` for a non-empty `pat`: the largest index at
which `pat` occurs in `s`, or `-1` when it does not occur. -/
def jsLastIndexOf (pat s : List Char) : Int :=
  match ((List.range (s.length + 1)).filter (fun i => pat.isPrefixOf (s.drop i))).getLast? with
  | some i => (i : Int)
  | none => -1

theorem length_dropWhileLe {α : Type} (p : α → Bool) (l : List α) :
    (l.dropWhile p).length ≤ l.length := by
  induction l with
  | nil => simp [List.dropWhile]
  | cons a l ih =>
    by_cases h : p a
    · simp [List.dropWhile, h]
      omega
    · simp [List.dropWhile, h]

theorem jsTrim_length_le (s : List Char) : (jsTrim s).length ≤ s.length := by
  unfold jsTrim dropTrail
  calc ((s.dropWhile isJsWs).reverse.dropWhile isJsWs).reverse.length
      = ((s.dropWhile isJsWs).reverse.dropWhile isJsWs).length := List.length_reverse _
    _ ≤ (s.dropWhile isJsWs).reverse.length := length_dropWhileLe _ _
    _ = (s.dropWhile isJsWs).length := List.length_reverse _
    _ ≤ s.length := length_dropWhileLe _ _

/-! ## The line-based chunker (`chunkText` in `supabase/functions/ingest-pdf/index.ts`) -/

namespace IngestPdf

/-- `/^(#{1,6}\s|Section\s|Page\s|\d+\.\d+|\*\*|Rule\s|[A-Z]{1,3}\d+)/i`
applied via `.test` (anchored at the start, case-insensitive). -/
def isAsciiLetter (c : Char) : Bool :=
  ('A' ≤ c && c ≤ 'Z') || ('a' ≤ c && c ≤ 'z')

def isDigitCh (c : Char) : Bool :=
  '0' ≤ c && c ≤ '9'

/-- Case-insensitive word `w` (given in lowercase) followed by a `\s` character. -/
def ciWordWs (w : String) (s : List Char) : Bool :=
  ((s.take w.toList.length).map Char.toLower = w.toList) &&
    (match s.drop w.toList.length with
     | c :: _ => isJsWs c
     | [] => false)

/-- `#{1,6}\s` at the start of the string. -/
def hashMarker (s : List Char) : Bool :=
  (List.range 6).any (fun k =>
    let n := k + 1
    (s.take n = List.replicate n '#') &&
      (match s.drop n with
       | c :: _ => isJsWs c
       | [] => false))

/-- `\d+\.\d+` at the start of the string. -/
def decimalRule (s : List Char) : Bool :=
  let ds := s.takeWhile isDigitCh
  (!ds.isEmpty) &&
    (match s.drop ds.length with
     | '.' :: c :: _ => isDigitCh c
     | _ => false)

/-- `[A-Z]{1,3}\d+` at the start of the string, case-insensitively. -/
def ruleCode (s : List Char) : Bool :=
  (List.range 3).any (fun k =>
    let n := k + 1
    ((s.take n).length = n) && (s.take n).all isAsciiLetter &&
      (match s.drop n with
       | c :: _ => isDigitCh c
       | [] => false))

def sectionMarkers (s : List Char) : Bool :=
  hashMarker s || ciWordWs "section" s || ciWordWs "page" s || decimalRule s ||
    ['*', '*'].isPrefixOf s || ciWordWs "rule" s || ruleCode s

/-- The chunker's loop state: the chunks pushed so far and the running buffer
(`currentChunk`). -/
structure ChunkSt where
  chunks : List (List Char)
  cur : List Char
deriving DecidableEq, Repr

/-- `currentChunk + (currentChunk ? "\n" : "") + line`. -/
def potentialOf (cur line : List Char) : List Char :=
  if cur.isEmpty then line else cur ++ '\n' :: line

/-- `currentChunk.slice(Math.max(0, currentChunk.length - overlap))`. -/
def lastOverlapOf (overlap : Nat) (cur : List Char) : List Char :=
  cur.drop (cur.length - overlap)

/-- `Math.max(lastOverlap.lastIndexOf(". "), lastOverlap.lastIndexOf("\n"))`. -/
def breakPointOf (overlap : Nat) (cur : List Char) : Int :=
  max (jsLastIndexOf ['.', ' '] (lastOverlapOf overlap cur))
    (jsLastIndexOf ['\n'] (lastOverlapOf overlap cur))

/-- The non-marker restart of the buffer after a flush: seed from the trailing
overlap trimmed back to the nearest sentence end or line break, falling back to
just the line. -/
def overlapSeed (overlap : Nat) (cur line : List Char) : List Char :=
  if 0 < breakPointOf overlap cur then
    jsTrim ((lastOverlapOf overlap cur).drop ((breakPointOf overlap cur).toNat + 1)) ++
      '\n' :: line
  else line

/-- One iteration of the `for` loop of `chunkText` over the next line. -/
def chunkStep (chunkSize overlap : Nat) (st : ChunkSt) (line : List Char) : ChunkSt :=
  if chunkSize < (potentialOf st.cur line).length ∧ 100 < st.cur.length then
    ⟨st.chunks ++ [jsTrim st.cur],
      if sectionMarkers line then line else overlapSeed overlap st.cur line⟩
  else
    ⟨st.chunks, potentialOf st.cur line⟩

/-- After the loop: push the remaining buffer when its trimmed length exceeds 50. -/
def finishChunks (st : ChunkSt) : List (List Char) :=
  if 50 < (jsTrim st.cur).length then st.chunks ++ [jsTrim st.cur] else st.chunks

/-- `chunkText(text, chunkSize, overlap)` from `ingest-pdf/index.ts`:
line-by-line accumulation with structure-aware flush boundaries. -/
def chunkText (text : List Char) (chunkSize overlap : Nat) : List (List Char) :=
  finishChunks ((splitOnNl text).foldl (chunkStep chunkSize overlap) ⟨[], []⟩)

theorem potentialOf_length (cur line : List Char) (h : cur ≠ []) :
    (potentialOf cur line).length = cur.length + 1 + line.length := by
  unfold potentialOf
  rw [if_neg (by simpa [List.isEmpty_iff] using h)]
  simp [List.length_append]
  omega

theorem chunkStep_flush (chunkSize overlap : Nat) (st : ChunkSt) (line : List Char)
    (hbuf : 100 < st.cur.length)
    (hflush : chunkSize < st.cur.length + 1 + line.length)
    (hmark : sectionMarkers line = true) :
    chunkStep chunkSize overlap st line = ⟨st.chunks ++ [jsTrim st.cur], line⟩ := by
  have hne : st.cur ≠ [] := by
    intro h
    rw [h] at hbuf
    simp at hbuf
  unfold chunkStep
  rw [if_pos ⟨by rw [potentialOf_length st.cur line hne]; omega, hbuf⟩, if_pos hmark]

/-- C1: in the line-based chunker, whenever the buffer is flushed as a chunk and
the line that triggered the flush matches the structural-marker pattern, the
next chunk's buffer starts as exactly that line, with no overlap text from the
previous chunk prepended. -/
theorem structural_marker_starts_fresh (chunkSize overlap : Nat) (st : ChunkSt)
    (line : List Char)
    (hbuf : 100 < st.cur.length)
    (hflush : chunkSize < st.cur.length + 1 + line.length)
    (hmark : sectionMarkers line = true) :
    (chunkStep chunkSize overlap st line).cur = line ∧
    (chunkStep chunkSize overlap st line).chunks = st.chunks ++ [jsTrim st.cur] := by
  rw [chunkStep_flush chunkSize overlap st line hbuf hflush hmark]
  exact ⟨rfl, rfl⟩

def c1Buf : List Char := List.replicate 101 'a'

/-- Witness for C1 at a concrete flush point: a 101-character buffer flushed by
the structural line "Section 2". -/
theorem structural_marker_starts_fresh_witness :
    (100 < c1Buf.length ∧ 105 < c1Buf.length + 1 + ("Section 2".toList).length ∧
      sectionMarkers "Section 2".toList = true) ∧
    ((chunkStep 105 5 ⟨[], c1Buf⟩ "Section 2".toList).cur = "Section 2".toList ∧
      (chunkStep 105 5 ⟨[], c1Buf⟩ "Section 2".toList).chunks = [] ++ [jsTrim c1Buf]) :=
  ⟨⟨by decide, by decide, by decide⟩,
    structural_marker_starts_fresh 105 5 ⟨[], c1Buf⟩ "Section 2".toList
      (by decide) (by decide) (by decide)⟩

def c2Text : List Char :=
  List.replicate 60 'a' ++ '\n' :: List.replicate 60 'b' ++ '\n' :: List.replicate 60 'c'

/-- C2 counterexample: with `chunkSize = 102`, `overlap = 5`, the text
`a^60 \n b^60 \n c^60` produces a first chunk of 121 characters — above
`chunkSize + overlap = 107` — that contains a newline, so it is not a single
line, and no single line of it exceeds `chunkSize`.  The claimed exception
("a chunk consisting of a single line that alone exceeds targetSize") does not
cover it. -/
theorem chunk_length_claim_cex :
    ¬ (∀ c ∈ chunkText c2Text 102 5,
        c.length ≤ 102 + 5 ∨ ('\n' ∉ c ∧ 102 < c.length)) := by decide

/-- Longest line length of the input text. -/
def maxLineLen (text : List Char) : Nat :=
  ((splitOnNl text).map List.length).foldr max 0

theorem le_foldr_max {n : Nat} {l : List Nat} (h : n ∈ l) : n ≤ l.foldr max 0 := by
  induction l with
  | nil => cases h
  | cons a l ih =>
    rcases List.mem_cons.mp h with h | h
    · subst h; exact Nat.le_max_left _ _
    · exact le_trans (ih h) (Nat.le_max_right _ _)

theorem lastOverlapOf_length (overlap : Nat) (cur : List Char) :
    (lastOverlapOf overlap cur).length ≤ overlap := by
  unfold lastOverlapOf
  rw [List.length_drop]
  omega

theorem overlapSeed_length (overlap : Nat) (cur line : List Char) :
    (overlapSeed overlap cur line).length ≤ overlap + 1 + line.length := by
  unfold overlapSeed
  split
  · have h1 := lastOverlapOf_length overlap cur
    have h2 := jsTrim_length_le
      ((lastOverlapOf overlap cur).drop ((breakPointOf overlap cur).toNat + 1))
    have h3 : ((lastOverlapOf overlap cur).drop ((breakPointOf overlap cur).toNat + 1)).length ≤
        (lastOverlapOf overlap cur).length := by
      rw [List.length_drop]; omega
    simp only [List.length_append, List.length_cons]
    omega
  · omega

theorem chunkStep_bound (chunkSize overlap L : Nat) (st : ChunkSt) (line : List Char)
    (hl : line.length ≤ L)
    (hcur : st.cur.length ≤ max chunkSize (max 100 overlap + 1 + L)) :
    (chunkStep chunkSize overlap st line).cur.length ≤
      max chunkSize (max 100 overlap + 1 + L) ∧
    ∀ c ∈ (chunkStep chunkSize overlap st line).chunks,
      c ∈ st.chunks ∨ c.length ≤ max chunkSize (max 100 overlap + 1 + L) := by
  have hB1 : L ≤ max chunkSize (max 100 overlap + 1 + L) := by
    have h := le_max_right chunkSize (max 100 overlap + 1 + L)
    omega
  have hBmid : max 100 overlap + 1 + L ≤ max chunkSize (max 100 overlap + 1 + L) :=
    le_max_right _ _
  unfold chunkStep
  split
  case isTrue hcond =>
    refine ⟨?_, ?_⟩
    · -- the refilled buffer
      show (if sectionMarkers line = true then line
        else overlapSeed overlap st.cur line).length ≤ _
      split
      · exact le_trans hl hB1
      · have h := overlapSeed_length overlap st.cur line
        have h2 : overlap ≤ max 100 overlap := le_max_right _ _
        omega
    · intro c hc
      have hc2 : c ∈ st.chunks ++ [jsTrim st.cur] := hc
      rcases List.mem_append.mp hc2 with h | h
      · exact Or.inl h
      · right
        rcases List.mem_singleton.mp h with rfl
        exact le_trans (jsTrim_length_le st.cur) hcur
  case isFalse hcond =>
    refine ⟨?_, fun c hc => Or.inl hc⟩
    show (potentialOf st.cur line).length ≤ _
    by_cases hemp : st.cur = []
    · have hpot : potentialOf st.cur line = line := by
        unfold potentialOf
        rw [if_pos (by simp [hemp])]
      rw [hpot]
      exact le_trans hl hB1
    · rw [potentialOf_length st.cur line hemp] at hcond ⊢
      rcases not_and_or.mp hcond with h | h
      · push_neg at h
        exact le_trans h (le_max_left _ _)
      · push_neg at h
        omega

theorem foldl_chunkStep_bound (chunkSize overlap L : Nat) (lines : List (List Char))
    (hl : ∀ l ∈ lines, l.length ≤ L) :
    ∀ st : ChunkSt, st.cur.length ≤ max chunkSize (max 100 overlap + 1 + L) →
      (∀ c ∈ st.chunks, c.length ≤ max chunkSize (max 100 overlap + 1 + L)) →
      (lines.foldl (chunkStep chunkSize overlap) st).cur.length ≤
        max chunkSize (max 100 overlap + 1 + L) ∧
      ∀ c ∈ (lines.foldl (chunkStep chunkSize overlap) st).chunks,
        c.length ≤ max chunkSize (max 100 overlap + 1 + L) := by
  induction lines with
  | nil => intro st hcur hch; exact ⟨hcur, hch⟩
  | cons a lines ih =>
    intro st hcur hch
    have ha : a.length ≤ L := hl a (List.mem_cons_self a lines)
    have hl2 : ∀ l ∈ lines, l.length ≤ L := fun l h => hl l (List.mem_cons_of_mem a h)
    have hstep := chunkStep_bound chunkSize overlap L st a ha hcur
    simp only [List.foldl_cons]
    refine ih hl2 _ hstep.1 ?_
    intro c hc
    rcases hstep.2 c hc with h | h
    · exact hch c h
    · exact h

/-- C2 amended: every chunk emitted by the line-based chunker has length at most
`max chunkSize (max 100 overlap + 1 + maxLineLen text)`.  In particular a chunk
can exceed `chunkSize + overlap` only when the input contains a single
over-long line; such an oversized chunk need not be that line alone — it may
also carry up to `max 100 overlap` buffered characters and a newline in front
of the over-long line. -/
theorem chunk_length_bound (text : List Char) (chunkSize overlap : Nat)
    (c : List Char) (hc : c ∈ chunkText text chunkSize overlap) :
    c.length ≤ max chunkSize (max 100 overlap + 1 + maxLineLen text) := by
  have hl : ∀ l ∈ splitOnNl text, l.length ≤ maxLineLen text := by
    intro l h
    exact le_foldr_max (List.mem_map_of_mem List.length h)
  have hfold := foldl_chunkStep_bound chunkSize overlap (maxLineLen text) (splitOnNl text)
    hl ⟨[], []⟩ (by simp) (by simp)
  unfold chunkText finishChunks at hc
  split at hc
  · rcases List.mem_append.mp hc with h | h
    · exact hfold.2 c h
    · rcases List.mem_singleton.mp h with rfl
      exact le_trans (jsTrim_length_le _) hfold.1
  · exact hfold.2 c hc

/-- Witness for the amended C2 bound at a concrete input: the 121-character
first chunk of `c2Text` satisfies the proved bound (`maxLineLen c2Text = 60`,
so the bound is `max 102 166 = 166`). -/
theorem chunk_length_bound_witness :
    ((List.replicate 60 'a' ++ '\n' :: List.replicate 60 'b') ∈ chunkText c2Text 102 5) ∧
    (List.replicate 60 'a' ++ '\n' :: List.replicate 60 'b' : List Char).length ≤
      max 102 (max 100 5 + 1 + maxLineLen c2Text) :=
  ⟨by decide, chunk_length_bound c2Text 102 5 _ (by decide)⟩

end IngestPdf

/-! ## The resumable embedding step (`process-embeddings` edge function)

The database is modelled per manual: the chunk rows of the manual and its
`manuals` row.  The embedding oracle is a black-box function from a chunk row
to either a vector or an error message; persistence operations are modelled as
always succeeding. -/

namespace ProcessEmbeddings

def BATCH_SIZE : Nat := 10

structure ChunkRow where
  id : Nat
  content : List Char
  embedding : Option (List Int)
deriving DecidableEq, Repr

structure ManualRow where
  status : List Char
  chunkCount : Nat
  processedAtSet : Bool
deriving DecidableEq, Repr

structure DB where
  chunks : List ChunkRow
  manual : ManualRow
deriving DecidableEq, Repr

/-- The JSON body returned by the function; fields absent from a branch's
response object are `none`. -/
structure PEResponse where
  success : Bool
  complete : Bool
  processed : Option Nat
  errors : Option Nat
  remaining : Option Nat
  totalChunks : Option Nat
  errorMessages : Option (List (List Char))
deriving DecidableEq, Repr

/-- `SELECT ... WHERE manual_id = ... AND embedding IS NULL`. -/
def nullChunks (db : DB) : List ChunkRow :=
  db.chunks.filter (fun r => r.embedding = none)

/-- `UPDATE document_chunks SET embedding = ... WHERE id = ...`. -/
def setEmb (db : DB) (cid : Nat) (v : List Int) : DB :=
  { db with
    chunks := db.chunks.map (fun r => if r.id = cid then { r with embedding := some v } else r) }

/-- `UPDATE manuals SET status = 'ready', processed_at = now(), chunk_count = ...`. -/
def markReady (db : DB) : DB :=
  { db with
    manual := { status := "ready".toList, chunkCount := db.chunks.length, processedAtSet := true } }

/-- The body of the per-chunk `try`/`catch`: on success the chunk's embedding is
written; on failure the error counter grows and up to three messages are kept. -/
def processOne (emb : ChunkRow → Except (List Char) (List Int))
    (acc : DB × Nat × Nat × List (List Char)) (c : ChunkRow) :
    DB × Nat × Nat × List (List Char) :=
  match emb c with
  | .ok v => (setEmb acc.1 c.id v, acc.2.1 + 1, acc.2.2.1, acc.2.2.2)
  | .error m =>
    (acc.1, acc.2.1, acc.2.2.1 + 1,
      if acc.2.2.2.length < 3 then acc.2.2.2 ++ [m] else acc.2.2.2)

/-- `.is("embedding", null).limit(BATCH_SIZE)`: the batch fetched by one
invocation. -/
def batchOf (db : DB) : List ChunkRow :=
  (nullChunks db).take BATCH_SIZE

/-- The `for (const chunk of chunks)` loop over the fetched batch, threading the
database and the `successCount` / `errorCount` / `errors` accumulators. -/
def runBatch (emb : ChunkRow → Except (List Char) (List Int)) (db : DB) :
    DB × Nat × Nat × List (List Char) :=
  (batchOf db).foldl (processOne emb) (db, 0, 0, [])

/-- Count of chunks still lacking an embedding after the batch ran. -/
def remainingAfter (emb : ChunkRow → Except (List Char) (List Int)) (db : DB) : Nat :=
  (nullChunks (runBatch emb db).1).length

/-- One invocation of the `process-embeddings` handler on the happy
configuration path: fetch up to `BATCH_SIZE` chunks whose embedding is null;
when none remain, finalize the manual and answer the completion shape; else
process the batch, count the still-null chunks, finalize when that count is
zero, and answer the progress shape. -/
def processEmbeddings (emb : ChunkRow → Except (List Char) (List Int)) (db : DB) :
    DB × PEResponse :=
  if (batchOf db).isEmpty then
    (markReady db,
      { success := true, complete := true, processed := none, errors := none,
        remaining := none, totalChunks := some db.chunks.length, errorMessages := none })
  else
    ((if remainingAfter emb db = 0 then markReady (runBatch emb db).1 else (runBatch emb db).1),
      { success := true, complete := remainingAfter emb db = 0,
        processed := some (runBatch emb db).2.1,
        errors := some (runBatch emb db).2.2.1,
        remaining := some (remainingAfter emb db), totalChunks := none,
        errorMessages := if (runBatch emb db).2.2.2.isEmpty then none
          else some (runBatch emb db).2.2.2 })

/-- An embedding oracle that fails on every chunk. -/
def embFailAll : ChunkRow → Except (List Char) (List Int) :=
  fun _ => .error "OpenAI API error: 500 - boom".toList

/-- A manual whose two chunks are already embedded. -/
def dbDone : DB :=
  ⟨[⟨1, "alpha".toList, some [1, 2]⟩, ⟨2, "beta".toList, some [3, 4]⟩],
    ⟨"embedding".toList, 2, false⟩⟩

/-- C3 counterexample: on a document whose chunks all have embeddings, the step
answers the early-completion shape, whose JSON has **no** `remaining` field at
all (it reports `totalChunks` instead), so the claimed `remaining = 0` is not
returned. -/
theorem complete_response_omits_remaining_cex :
    ¬ ((processEmbeddings embFailAll dbDone).2.complete = true ∧
       (processEmbeddings embFailAll dbDone).2.remaining = some 0) := by decide

/-- C3 amended: the resumable embedding step is idempotent once complete — for a
document whose chunks all have non-null embeddings it returns `success` and
`complete = true`, leaves every chunk row (hence every embedding) unchanged,
and only rewrites the manual's status/chunk-count/processed-at; but the
response of this branch omits the `remaining` field (reporting `totalChunks`
instead), so the remaining count of zero is only implicit. -/
theorem resumable_step_idempotent_when_complete
    (emb : ChunkRow → Except (List Char) (List Int)) (db : DB)
    (h : ∀ c ∈ db.chunks, c.embedding ≠ none) :
    (processEmbeddings emb db).2.success = true ∧
    (processEmbeddings emb db).2.complete = true ∧
    (processEmbeddings emb db).2.remaining = none ∧
    (processEmbeddings emb db).2.totalChunks = some db.chunks.length ∧
    (processEmbeddings emb db).1.chunks = db.chunks := by
  have hempty : batchOf db = [] := by
    have hnull : nullChunks db = [] := by
      unfold nullChunks
      rw [List.filter_eq_nil_iff]
      intro c hc
      simpa using h c hc
    unfold batchOf
    rw [hnull, List.take_nil]
  unfold processEmbeddings
  rw [hempty]
  simp [markReady]

/-- Witness for the amended C3 at `dbDone`. -/
theorem resumable_step_idempotent_when_complete_witness :
    (∀ c ∈ dbDone.chunks, c.embedding ≠ none) ∧
    ((processEmbeddings embFailAll dbDone).2.success = true ∧
     (processEmbeddings embFailAll dbDone).2.complete = true ∧
     (processEmbeddings embFailAll dbDone).2.remaining = none ∧
     (processEmbeddings embFailAll dbDone).2.totalChunks = some dbDone.chunks.length ∧
     (processEmbeddings embFailAll dbDone).1.chunks = dbDone.chunks) :=
  ⟨by decide, resumable_step_idempotent_when_complete embFailAll dbDone (by decide)⟩

/-- A manual with two chunks still lacking embeddings. -/
def dbTwoNull : DB :=
  ⟨[⟨1, "alpha".toList, none⟩, ⟨2, "beta".toList, none⟩], ⟨"embedding".toList, 0, false⟩⟩

/-- C4 counterexample: when **every** chunk of the batch fails to embed, the run
is still not fatal — the handler answers `success = true` with
`processed = 0`, `errors = 2`, and the manual's status is left untouched
(`"embedding"`, not `"error"`), contradicting the claimed exception that such a
run "becomes fatal". -/
theorem all_chunks_fail_not_fatal_cex :
    (processEmbeddings embFailAll dbTwoNull).2.success = true ∧
    (processEmbeddings embFailAll dbTwoNull).2.processed = some 0 ∧
    (processEmbeddings embFailAll dbTwoNull).2.errors = some 2 ∧
    (processEmbeddings embFailAll dbTwoNull).1.manual.status = "embedding".toList ∧
    (processEmbeddings embFailAll dbTwoNull).1.manual.status ≠ "error".toList := by decide

def isOkB {ε α : Type} : Except ε α → Bool
  | .ok _ => true
  | .error _ => false

theorem processOne_counts (emb : ChunkRow → Except (List Char) (List Int))
    (batch : List ChunkRow) :
    ∀ (db : DB) (s e : Nat) (ms : List (List Char)),
      (batch.foldl (processOne emb) (db, s, e, ms)).2.1 =
        s + batch.countP (fun c => isOkB (emb c)) ∧
      (batch.foldl (processOne emb) (db, s, e, ms)).2.2.1 =
        e + batch.countP (fun c => !isOkB (emb c)) ∧
      (batch.foldl (processOne emb) (db, s, e, ms)).1.manual = db.manual := by
  induction batch with
  | nil => intro db s e ms; simp
  | cons c batch ih =>
    intro db s e ms
    simp only [List.foldl_cons, List.countP_cons]
    cases hc : emb c with
    | ok v =>
      have hstep : processOne emb (db, s, e, ms) c = (setEmb db c.id v, s + 1, e, ms) := by
        unfold processOne
        rw [hc]
      rw [hstep]
      have hh := ih (setEmb db c.id v) (s + 1) e ms
      refine ⟨?_, ?_, ?_⟩
      · rw [hh.1]
        simp [isOkB, hc]
        omega
      · rw [hh.2.1]
        simp [isOkB, hc]
      · rw [hh.2.2]
        rfl
    | error m =>
      have hstep : processOne emb (db, s, e, ms) c =
          (db, s, e + 1, if ms.length < 3 then ms ++ [m] else ms) := by
        unfold processOne
        rw [hc]
      rw [hstep]
      have hh := ih db s (e + 1) (if ms.length < 3 then ms ++ [m] else ms)
      refine ⟨?_, ?_, ?_⟩
      · rw [hh.1]
        simp [isOkB, hc]
      · rw [hh.2.1]
        simp [isOkB, hc]
        omega
      · exact hh.2.2

/-- C4 amended: in the resumable embedding step an embedding failure on one
chunk is always non-fatal to the run — with no exception for a batch that fails
entirely.  The response tallies `processed` (oracle successes on the batch) and
`errors` (oracle failures) separately together with the count of chunks still
lacking embeddings, and the manual's status is never set to `error`: it flips
to `ready` exactly when no null-embedding chunk remains, and is untouched
otherwise. -/
theorem embedding_failures_nonfatal (emb : ChunkRow → Except (List Char) (List Int))
    (db : DB) (h : nullChunks db ≠ []) :
    (processEmbeddings emb db).2.success = true ∧
    (processEmbeddings emb db).2.processed =
      some ((batchOf db).countP (fun c => isOkB (emb c))) ∧
    (processEmbeddings emb db).2.errors =
      some ((batchOf db).countP (fun c => !isOkB (emb c))) ∧
    (∃ rem, (processEmbeddings emb db).2.remaining = some rem ∧
      (processEmbeddings emb db).2.complete = (rem = 0 : Bool) ∧
      (processEmbeddings emb db).1.manual.status =
        (if rem = 0 then "ready".toList else db.manual.status)) := by
  have hb : (batchOf db).isEmpty = false := by
    unfold batchOf
    rcases (List.exists_cons_of_ne_nil h) with ⟨c, cs, hcs⟩
    rw [hcs]
    simp [BATCH_SIZE, List.isEmpty]
  have hcounts := processOne_counts emb (batchOf db) db 0 0 []
  unfold processEmbeddings
  rw [hb]
  simp only [Bool.false_eq_true, if_false]
  have hproc : (runBatch emb db).2.1 = (batchOf db).countP (fun c => isOkB (emb c)) := by
    unfold runBatch
    rw [hcounts.1, Nat.zero_add]
  have herr : (runBatch emb db).2.2.1 = (batchOf db).countP (fun c => !isOkB (emb c)) := by
    unfold runBatch
    rw [hcounts.2.1, Nat.zero_add]
  refine ⟨trivial, ?_, ?_, ?_⟩
  · rw [hproc]
  · rw [herr]
  · refine ⟨remainingAfter emb db, rfl, rfl, ?_⟩
    split
    · rfl
    · show (runBatch emb db).1.manual.status = db.manual.status
      unfold runBatch
      rw [hcounts.2.2]

/-- An oracle matching the spec's concrete scenario: in a batch of five chunks,
the third raises a non-rate-limit error and the rest succeed. -/
def embThirdFails : ChunkRow → Except (List Char) (List Int) :=
  fun c => if c.id = 3 then .error "OpenAI API error: 500 - boom".toList else .ok [Int.ofNat c.id]

def dbFiveNull : DB :=
  ⟨[⟨1, "a".toList, none⟩, ⟨2, "b".toList, none⟩, ⟨3, "c".toList, none⟩,
    ⟨4, "d".toList, none⟩, ⟨5, "e".toList, none⟩], ⟨"embedding".toList, 0, false⟩⟩

/-- Witness for the amended C4 at the spec's concrete scenario: five chunks,
chunk #3 fails, the run reports `processed = 4`, `errors = 1`, stays
non-fatal, and the manual flips to `ready` because no null chunk remains. -/
theorem embedding_failures_nonfatal_witness :
    (nullChunks dbFiveNull ≠ []) ∧
    ((processEmbeddings embThirdFails dbFiveNull).2.success = true ∧
     (processEmbeddings embThirdFails dbFiveNull).2.processed =
       some ((batchOf dbFiveNull).countP (fun c => isOkB (embThirdFails c))) ∧
     (processEmbeddings embThirdFails dbFiveNull).2.errors =
       some ((batchOf dbFiveNull).countP (fun c => !isOkB (embThirdFails c))) ∧
     (∃ rem, (processEmbeddings embThirdFails dbFiveNull).2.remaining = some rem ∧
       (processEmbeddings embThirdFails dbFiveNull).2.complete = (rem = 0 : Bool) ∧
       (processEmbeddings embThirdFails dbFiveNull).1.manual.status =
         (if rem = 0 then "ready".toList else dbFiveNull.manual.status))) :=
  ⟨by decide, embedding_failures_nonfatal embThirdFails dbFiveNull (by decide)⟩

end ProcessEmbeddings

/-! ## The retrying embedding client (`generateEmbedding` with `retries = 3`)

The external embedding oracle is modelled as a function from the attempt number
to the outcome of that attempt's `fetch`.  The client returns the result
together with the list of delays (in milliseconds) awaited between attempts. -/

namespace EmbedClient

/-- Outcome of one `fetch` of the embeddings endpoint. -/
inductive FetchOutcome where
  | rateLimited
  | httpError (msg : List Char)
  | networkError (msg : List Char)
  | ok (v : List Int)
deriving DecidableEq, Repr

instance {eps alpha : Type} [DecidableEq eps] [DecidableEq alpha] :
    DecidableEq (Except eps alpha) := fun a b =>
  match a, b with
  | .ok x, .ok y =>
    if h : x = y then .isTrue (by rw [h]) else .isFalse (fun hh => h (by injection hh))
  | .error x, .error y =>
    if h : x = y then .isTrue (by rw [h]) else .isFalse (fun hh => h (by injection hh))
  | .ok _, .error _ => .isFalse (fun hh => Except.noConfusion hh)
  | .error _, .ok _ => .isFalse (fun hh => Except.noConfusion hh)

/-- `new Error("OpenAI API error: " + error)` thrown on a non-ok, non-429
response. -/
def apiErrMsg (m : List Char) : List Char :=
  "OpenAI API error: ".toList ++ m

/-- `new Error("Failed to generate embedding after retries")` thrown after the
attempt loop exits. -/
def exhaustedMsg : List Char :=
  "Failed to generate embedding after retries".toList

/-- The `for (attempt = 1; attempt <= retries; attempt++)` loop.  On a 429 the
loop waits `2^attempt * 1000` ms and continues; on any other failure the thrown
error is caught and, unless this was the final attempt, retried after
`1000 * attempt` ms.  The fuel argument only bounds the recursion and never
runs out when it starts at `retries + 1 - attempt` or more. -/
def geAux (oracle : Nat → FetchOutcome) (retries : Nat) :
    Nat → Nat → Except (List Char) (List Int) × List Nat
  | 0, _ => (.error exhaustedMsg, [])
  | fuel + 1, attempt =>
    if retries < attempt then (.error exhaustedMsg, [])
    else
      match oracle attempt with
      | .rateLimited =>
        ((geAux oracle retries fuel (attempt + 1)).1,
          2 ^ attempt * 1000 :: (geAux oracle retries fuel (attempt + 1)).2)
      | .ok v => (.ok v, [])
      | .httpError m =>
        if attempt = retries then (.error (apiErrMsg m), [])
        else
          ((geAux oracle retries fuel (attempt + 1)).1,
            1000 * attempt :: (geAux oracle retries fuel (attempt + 1)).2)
      | .networkError m =>
        if attempt = retries then (.error m, [])
        else
          ((geAux oracle retries fuel (attempt + 1)).1,
            1000 * attempt :: (geAux oracle retries fuel (attempt + 1)).2)

/-- `generateEmbedding(text, apiKey, retries)` from the retrying ingest
function, as a function of the oracle's per-attempt outcomes. -/
def generateEmbedding (oracle : Nat → FetchOutcome) (retries : Nat := 3) :
    Except (List Char) (List Int) × List Nat :=
  geAux oracle retries (retries + 1) 1

/-- An oracle whose first attempt fails with a non-rate-limit HTTP error and
whose second attempt succeeds. -/
def oracleC5 : Nat → FetchOutcome :=
  fun attempt => if attempt = 1 then .httpError "500 - boom".toList else .ok [7]

/-- C5 counterexample: a non-rate-limit failure on attempt 1 is **not** surfaced
immediately — the client retries after a 1000 ms delay and returns the second
attempt's vector, whereas the claim demands the immediate error
`OpenAI API error: 500 - boom` with no retry. -/
theorem non_rate_limit_failure_retried_cex :
    generateEmbedding oracleC5 3 = (.ok [7], [1000]) ∧
    generateEmbedding oracleC5 3 ≠ (.error (apiErrMsg "500 - boom".toList), []) := by
  decide

/-- C5 amended: the retry policy of the embedding client, attempt by attempt.
On a rate-limit outcome the client waits an exponentially growing
`2^attempt * 1000` ms and retries (up to the attempt ceiling); a non-rate-limit
failure is also retried — after a linearly growing `1000 * attempt` ms — and is
surfaced to the caller, carrying the oracle's error detail, only when it occurs
on the final attempt; a success returns immediately. -/
theorem geAux_succ (oracle : Nat → FetchOutcome) (retries fuel attempt : Nat) :
    geAux oracle retries (fuel + 1) attempt =
      if retries < attempt then (.error exhaustedMsg, [])
      else
        match oracle attempt with
        | .rateLimited =>
          ((geAux oracle retries fuel (attempt + 1)).1,
            2 ^ attempt * 1000 :: (geAux oracle retries fuel (attempt + 1)).2)
        | .ok v => (.ok v, [])
        | .httpError m =>
          if attempt = retries then (.error (apiErrMsg m), [])
          else
            ((geAux oracle retries fuel (attempt + 1)).1,
              1000 * attempt :: (geAux oracle retries fuel (attempt + 1)).2)
        | .networkError m =>
          if attempt = retries then (.error m, [])
          else
            ((geAux oracle retries fuel (attempt + 1)).1,
              1000 * attempt :: (geAux oracle retries fuel (attempt + 1)).2) := rfl

theorem retry_policy (oracle : Nat → FetchOutcome) (retries attempt fuel : Nat)
    (h : attempt ≤ retries) :
    (oracle attempt = .rateLimited →
      geAux oracle retries (fuel + 1) attempt =
        ((geAux oracle retries fuel (attempt + 1)).1,
          2 ^ attempt * 1000 :: (geAux oracle retries fuel (attempt + 1)).2)) ∧
    (∀ v, oracle attempt = .ok v →
      geAux oracle retries (fuel + 1) attempt = (.ok v, [])) ∧
    (∀ m, oracle attempt = .httpError m → attempt < retries →
      geAux oracle retries (fuel + 1) attempt =
        ((geAux oracle retries fuel (attempt + 1)).1,
          1000 * attempt :: (geAux oracle retries fuel (attempt + 1)).2)) ∧
    (∀ m, oracle attempt = .httpError m → attempt = retries →
      geAux oracle retries (fuel + 1) attempt = (.error (apiErrMsg m), [])) := by
  have hnot : ¬ retries < attempt := by omega
  have hstep := geAux_succ oracle retries fuel attempt
  rw [if_neg hnot] at hstep
  refine ⟨?_, ?_, ?_, ?_⟩
  · intro hrl
    rw [hrl] at hstep
    exact hstep
  · intro v hok
    rw [hok] at hstep
    exact hstep
  · intro m hhe hlt
    rw [hhe] at hstep
    have h2 : geAux oracle retries (fuel + 1) attempt =
        if attempt = retries then (.error (apiErrMsg m), [])
        else ((geAux oracle retries fuel (attempt + 1)).1,
          1000 * attempt :: (geAux oracle retries fuel (attempt + 1)).2) := hstep
    rw [if_neg (by omega : ¬ attempt = retries)] at h2
    exact h2
  · intro m hhe heq
    rw [hhe] at hstep
    have h2 : geAux oracle retries (fuel + 1) attempt =
        if attempt = retries then (.error (apiErrMsg m), [])
        else ((geAux oracle retries fuel (attempt + 1)).1,
          1000 * attempt :: (geAux oracle retries fuel (attempt + 1)).2) := hstep
    rw [if_pos heq] at h2
    exact h2

/-- Witness for the amended C5 at attempt 1 of `oracleC5` with ceiling 3:
the non-rate-limit failure leads to a retry with a 1000 ms delay. -/
theorem retry_policy_witness :
    (1 ≤ 3 ∧ oracleC5 1 = .httpError "500 - boom".toList ∧ 1 < 3) ∧
    geAux oracleC5 3 (3 + 1) 1 =
      ((geAux oracleC5 3 3 2).1, 1000 * 1 :: (geAux oracleC5 3 3 2).2) :=
  ⟨⟨by decide, by decide, by decide⟩,
    (retry_policy oracleC5 3 1 3 (by decide)).2.2.1 "500 - boom".toList
      (by decide) (by decide)⟩

end EmbedClient

/-! ## Newline-delimited buffer handling (shared by the answer streamer's pump
and the client stream consumer) -/

/-- Split off the first complete line of a buffer: `some (line, rest)` when the
buffer contains a newline, `none` otherwise (mirrors
`buffer.indexOf("\n")` / `slice`). -/
def splitFirstLine : List Char → Option (List Char × List Char)
  | [] => none
  | c :: rest =>
    if c = '\n' then some ([], rest)
    else
      match splitFirstLine rest with
      | none => none
      | some (l, r) => some (c :: l, r)

theorem splitFirstLine_some : ∀ {b l r : List Char}, splitFirstLine b = some (l, r) →
    b = l ++ '\n' :: r ∧ '\n' ∉ l := by
  intro b
  induction b with
  | nil => intro l r h; simp [splitFirstLine] at h
  | cons c rest ih =>
    intro l r h
    unfold splitFirstLine at h
    split at h
    · rename_i hc
      rw [Option.some_inj] at h
      injection h with hl hr
      subst hl
      subst hr
      subst hc
      exact ⟨rfl, by simp⟩
    · rename_i hc
      cases hm : splitFirstLine rest with
      | none => rw [hm] at h; simp at h
      | some lr =>
        rcases lr with ⟨l2, r2⟩
        rw [hm] at h
        simp only [Option.some_inj, Prod.mk.injEq] at h
        rcases h with ⟨hl, hr⟩
        have hrest := ih hm
        subst hl
        subst hr
        refine ⟨by rw [hrest.1]; simp, ?_⟩
        intro hmem
        rcases List.mem_cons.mp hmem with h | h
        · exact hc h.symm
        · exact hrest.2 h

theorem splitFirstLine_none : ∀ {b : List Char}, splitFirstLine b = none ↔ '\n' ∉ b := by
  intro b
  induction b with
  | nil => simp [splitFirstLine]
  | cons c rest ih =>
    unfold splitFirstLine
    by_cases hc : c = '\n'
    · rw [if_pos hc]
      subst hc
      simp
    · rw [if_neg hc]
      cases hm : splitFirstLine rest with
      | none =>
        simp only [List.mem_cons]
        constructor
        · intro _ hor
          rcases hor with h | h
          · exact hc h.symm
          · exact (ih.mp hm) h
        · intro _
          trivial
      | some lr =>
        rcases lr with ⟨l2, r2⟩
        simp only [List.mem_cons]
        constructor
        · intro h; simp at h
        · intro h
          exfalso
          apply h
          right
          have := splitFirstLine_some hm
          rw [this.1]
          simp

theorem splitFirstLine_build : ∀ (l r : List Char), '\n' ∉ l →
    splitFirstLine (l ++ '\n' :: r) = some (l, r) := by
  intro l
  induction l with
  | nil => intro r _; simp [splitFirstLine]
  | cons c l2 ih =>
    intro r hnot
    have hc : ¬ c = '\n' := fun h => hnot (by rw [h]; simp)
    have hl2 : '\n' ∉ l2 := fun h => hnot (List.mem_cons_of_mem c h)
    simp only [List.cons_append]
    unfold splitFirstLine
    rw [if_neg hc, ih r hl2]

theorem splitFirstLine_append {b l r : List Char} (h : splitFirstLine b = some (l, r))
    (y : List Char) : splitFirstLine (b ++ y) = some (l, r ++ y) := by
  have hb := splitFirstLine_some h
  rw [hb.1]
  have : (l ++ '\n' :: r) ++ y = l ++ '\n' :: (r ++ y) := by simp
  rw [this]
  exact splitFirstLine_build l (r ++ y) hb.2

/-! ## The answer streamer (the stream pump of `serve` in `chat/index.ts`)

The pump reads the backend byte stream chunk by chunk, processes every complete
SSE line, splits token deltas into one event per character, and after the
backend stream ends appends — exactly when some cited pages were resolved — one
page-image event, then the `[DONE]` terminator.  `JSON.parse` plus the
`choices?.[0]?.delta?.content` lookup on a data line's payload is the black-box
function `parse`. -/

namespace Chat

structure PageImage where
  url : List Char
  pageNumber : Nat
deriving DecidableEq

/-- `${SUPABASE_URL}/storage/v1/object/public/manuals/${manualId}/pages/page_${pageNum}.jpg`. -/
def mkPageImage (supabaseUrl manualId : List Char) (n : Nat) : PageImage :=
  ⟨supabaseUrl ++ "/storage/v1/object/public/manuals/".toList ++ manualId ++
    "/pages/page_".toList ++ (toString n).toList ++ ".jpg".toList, n⟩

/-- `pageNumbers.map((pageNum) => ({url: ..., pageNumber: pageNum}))`. -/
def pageImageData (supabaseUrl manualId : List Char) (pageNumbers : List Nat) :
    List PageImage :=
  pageNumbers.map (mkPageImage supabaseUrl manualId)

/-- Result of `JSON.parse` and the `parsed.choices?.[0]?.delta?.content` lookup
on one data line's payload. -/
inductive ServerParse where
  | fail
  | noContent
  | content (s : List Char)

/-- One write to the outgoing stream. -/
inductive StreamWrite where
  | raw (line : List Char)
  | charEv (c : Char)
  | pageImagesEv (pages : List PageImage)
  | doneEv
deriving DecidableEq

/-- The writes produced from a parsed data line: a content delta becomes one
event per character; a parse failure or a contentless record passes the raw
line through. -/
def serverParseWrites (line : List Char) : ServerParse → List StreamWrite
  | .fail => [.raw line]
  | .noContent => [.raw line]
  | .content s => if s.isEmpty then [.raw line] else s.map StreamWrite.charEv

/-- The pump's handling of one complete SSE line: non-data lines and the
backend's own terminator pass through; an empty payload is dropped; everything
else goes through `serverParseWrites`. -/
def serverLine (parse : List Char → ServerParse) (line : List Char) :
    List StreamWrite :=
  if ¬("data: ".toList.isPrefixOf line) ∨ line = "data: [DONE]".toList then
    [.raw line]
  else
    if jsTrim (line.drop 6) = [] then []
    else serverParseWrites line (parse (jsTrim (line.drop 6)))

/-- Drain every complete line of the buffer, returning the writes and the
unconsumed tail (the fuel only bounds the recursion; the buffer length always
suffices). -/
def processBuf (parse : List Char → ServerParse) :
    Nat → List Char → List StreamWrite × List Char
  | 0, b => ([], b)
  | fuel + 1, b =>
    match splitFirstLine b with
    | none => ([], b)
    | some (l, r) =>
      (serverLine parse l ++ (processBuf parse fuel r).1, (processBuf parse fuel r).2)

/-- Feed one network chunk into the pump loop. -/
def pumpFold (parse : List Char → ServerParse) (acc : List StreamWrite × List Char)
    (chunk : List Char) : List StreamWrite × List Char :=
  (acc.1 ++ (processBuf parse (acc.2 ++ chunk).length (acc.2 ++ chunk)).1,
    (processBuf parse (acc.2 ++ chunk).length (acc.2 ++ chunk)).2)

/-- The whole pump: relay the backend chunks; then — iff any cited page was
resolved — exactly one page-image event; then the terminator. -/
def pump (parse : List Char → ServerParse) (pages : List PageImage)
    (chunks : List (List Char)) : List StreamWrite :=
  (chunks.foldl (pumpFold parse) ([], [])).1 ++
    (if pages.isEmpty then [] else [.pageImagesEv pages]) ++ [.doneEv]

def isBodyWrite : StreamWrite → Prop
  | .raw _ => True
  | .charEv _ => True
  | .pageImagesEv _ => False
  | .doneEv => False

theorem serverLine_body (parse : List Char → ServerParse) (line : List Char) :
    ∀ e ∈ serverLine parse line, isBodyWrite e := by
  intro e he
  unfold serverLine at he
  split at he
  · simp at he
    rw [he]
    trivial
  · split at he
    · simp at he
    · cases hp : parse (jsTrim (line.drop 6)) with
      | fail =>
        rw [hp] at he
        simp only [serverParseWrites] at he
        simp at he
        rw [he]
        trivial
      | noContent =>
        rw [hp] at he
        simp only [serverParseWrites] at he
        simp at he
        rw [he]
        trivial
      | content s =>
        rw [hp] at he
        simp only [serverParseWrites] at he
        split at he
        · simp at he
          rw [he]
          trivial
        · rcases List.mem_map.mp he with ⟨c, _, hc⟩
          rw [← hc]
          trivial

theorem processBuf_body (parse : List Char → ServerParse) :
    ∀ (fuel : Nat) (b : List Char), ∀ e ∈ (processBuf parse fuel b).1, isBodyWrite e := by
  intro fuel
  induction fuel with
  | zero => intro b e he; simp [processBuf] at he
  | succ fuel ih =>
    intro b e he
    unfold processBuf at he
    cases hs : splitFirstLine b with
    | none =>
      rw [hs] at he
      simp at he
    | some lr =>
      rcases lr with ⟨l, r⟩
      rw [hs] at he
      simp only at he
      rcases List.mem_append.mp he with h | h
      · exact serverLine_body parse l e h
      · exact ih r e h

theorem pumpFold_body (parse : List Char → ServerParse) (chunks : List (List Char)) :
    ∀ acc : List StreamWrite × List Char, (∀ e ∈ acc.1, isBodyWrite e) →
      ∀ e ∈ (chunks.foldl (pumpFold parse) acc).1, isBodyWrite e := by
  induction chunks with
  | nil => intro acc hacc e he; exact hacc e he
  | cons c cs ih =>
    intro acc hacc e he
    refine ih _ ?_ e he
    intro e2 he2
    rcases List.mem_append.mp he2 with h | h
    · exact hacc e2 h
    · exact processBuf_body parse _ _ e2 h

/-- C7: for every chat stream produced by the pump, if the resolved cited-page
list is non-empty then exactly one page-image event — carrying the
`{url, pageNumber}` pairs whose URLs are deterministically built from the
document id and page number — is emitted after the whole relayed backend stream
and immediately before the `[DONE]` terminator; if the page list is empty, no
page-image event is emitted at all.  The relayed body contains no page-image
and no terminator event. -/
theorem page_image_event_exactly_once (parse : List Char → ServerParse)
    (supabaseUrl manualId : List Char) (pageNumbers : List Nat)
    (chunks : List (List Char)) :
    ∃ body : List StreamWrite,
      pump parse (pageImageData supabaseUrl manualId pageNumbers) chunks =
        body ++
          (if pageNumbers.isEmpty then []
           else [StreamWrite.pageImagesEv
             (pageNumbers.map (mkPageImage supabaseUrl manualId))]) ++
        [StreamWrite.doneEv] ∧
      ∀ e ∈ body, (∀ ps, e ≠ StreamWrite.pageImagesEv ps) ∧ e ≠ StreamWrite.doneEv := by
  refine ⟨(chunks.foldl (pumpFold parse) ([], [])).1, ?_, ?_⟩
  · unfold pump pageImageData
    cases pageNumbers with
    | nil => simp
    | cons n ns => simp [List.isEmpty]
  · intro e he
    have hb := pumpFold_body parse chunks ([], []) (by intro e2 he2; simp at he2) e he
    cases e with
    | raw l => exact ⟨fun ps h => StreamWrite.noConfusion h, fun h => StreamWrite.noConfusion h⟩
    | charEv c => exact ⟨fun ps h => StreamWrite.noConfusion h, fun h => StreamWrite.noConfusion h⟩
    | pageImagesEv ps => exact hb.elim
    | doneEv => exact hb.elim

end Chat

/-! ## The retriever (`retrieveRelevantChunks` in `chat/index.ts` with the
`match_chunks_by_manual` SQL function)

The vector-similarity operator is the black-box nearest-neighbor oracle of the
spec: each candidate row carries its cosine distance to the (fixed) query
embedding as a rational number.  `match_chunks_by_manual` filters rows of the
requested manual with a non-null embedding and similarity `1 - distance` above
the threshold, orders them by ascending distance, and limits to `match_count`
rows; the retriever then labels the results `[Section 1]`, `[Section 2]`, ... in
result order. -/

namespace Chat

structure DChunk where
  manualId : Nat
  content : List Char
  embedded : Bool
  dist : ℚ
deriving DecidableEq

/-- `similarity = 1 - cosine_distance`. -/
def sim (c : DChunk) : ℚ := 1 - c.dist

/-- Insert into a list sorted by ascending distance (a model of the SQL
`ORDER BY dc.embedding <=> query_embedding`). -/
def insertByDist (c : DChunk) : List DChunk → List DChunk
  | [] => [c]
  | d :: ds => if c.dist ≤ d.dist then c :: d :: ds else d :: insertByDist c ds

def sortByDist : List DChunk → List DChunk
  | [] => []
  | c :: cs => insertByDist c (sortByDist cs)

/-- The `match_chunks_by_manual(query_embedding, manual_id_filter, match_count,
match_threshold)` SQL function. -/
def matchChunksByManual (table : List DChunk) (manualId : Nat)
    (matchCount : Nat) (matchThreshold : ℚ) : List DChunk :=
  (sortByDist (table.filter (fun r =>
    r.manualId = manualId && r.embedded && decide (matchThreshold < 1 - r.dist)))).take
    matchCount

/-- `[Section ${idx + 1}]\n`. -/
def sectionLabel (n : Nat) : List Char :=
  "[Section ".toList ++ (toString n).toList ++ "]\n".toList

/-- `chunks.map((c, idx) => "[Section " + (idx + 1) + "]\n" + c.content)`,
with `idx` starting at `j`. -/
def labelChunks : Nat → List (List Char) → List (List Char)
  | _, [] => []
  | j, c :: cs => (sectionLabel (j + 1) ++ c) :: labelChunks (j + 1) cs

/-- `.join("\n\n---\n\n")`. -/
def sepJoin : List (List Char) → List Char
  | [] => []
  | [c] => c
  | c :: cs => c ++ "\n\n---\n\n".toList ++ sepJoin cs

/-- The grounding context built by `retrieveRelevantChunks` (empty when no
chunk survives retrieval). -/
def groundingContext (table : List DChunk) (manualId : Nat) : List Char :=
  if (matchChunksByManual table manualId 20 (15 / 100)).isEmpty then []
  else
    "\n\nRELEVANT MANUAL CONTENT:\n\n".toList ++
      sepJoin (labelChunks 0 ((matchChunksByManual table manualId 20 (15 / 100)).map
        (fun c => c.content)))

def distLe (a b : DChunk) : Prop := a.dist ≤ b.dist

theorem insertByDist_cases (c : DChunk) (ds : List DChunk) :
    insertByDist c ds = c :: ds ∨
      ∃ d ds2, ds = d :: ds2 ∧ distLe d c ∧ insertByDist c ds = d :: insertByDist c ds2 := by
  cases ds with
  | nil => left; rfl
  | cons d ds2 =>
    by_cases h : c.dist ≤ d.dist
    · left
      simp only [insertByDist]
      rw [if_pos h]
    · right
      exact ⟨d, ds2, rfl, le_of_not_le h, by simp only [insertByDist]; rw [if_neg h]⟩

theorem mem_insertByDist {x c : DChunk} {l : List DChunk} :
    x ∈ insertByDist c l ↔ x = c ∨ x ∈ l := by
  induction l with
  | nil => simp [insertByDist]
  | cons d ds ih =>
    simp only [insertByDist]
    by_cases h : c.dist ≤ d.dist
    · rw [if_pos h]
      simp
    · rw [if_neg h]
      simp only [List.mem_cons, ih]
      tauto

theorem chain'_insertByDist (c : DChunk) (l : List DChunk)
    (h : List.Chain' distLe l) : List.Chain' distLe (insertByDist c l) := by
  induction l with
  | nil => simp [insertByDist, List.chain'_singleton]
  | cons d ds ih =>
    simp only [insertByDist]
    by_cases hcd : c.dist ≤ d.dist
    · rw [if_pos hcd]
      refine List.chain'_cons'.mpr ⟨?_, h⟩
      intro y hy
      simp only [List.head?_cons, Option.mem_def, Option.some.injEq] at hy
      rw [← hy]
      exact hcd
    · rw [if_neg hcd]
      have hds : List.Chain' distLe ds := (List.chain'_cons'.mp h).2
      refine List.chain'_cons'.mpr ⟨?_, ih hds⟩
      intro y hy
      rcases insertByDist_cases c ds with hc | ⟨d2, ds2, hds2, _, hc⟩
      · rw [hc] at hy
        simp only [List.head?_cons, Option.mem_def, Option.some.injEq] at hy
        rw [← hy]
        exact le_of_not_le hcd
      · rw [hc] at hy
        simp only [List.head?_cons, Option.mem_def, Option.some.injEq] at hy
        rw [← hy]
        rw [hds2] at h
        exact (List.chain'_cons'.mp h).1 d2 (by simp)

theorem chain'_sortByDist (l : List DChunk) : List.Chain' distLe (sortByDist l) := by
  induction l with
  | nil => simp [sortByDist]
  | cons c cs ih => exact chain'_insertByDist c (sortByDist cs) ih

theorem mem_sortByDist {x : DChunk} {l : List DChunk} :
    x ∈ sortByDist l ↔ x ∈ l := by
  induction l with
  | nil => simp [sortByDist]
  | cons c cs ih =>
    unfold sortByDist
    rw [mem_insertByDist]
    simp [ih]

theorem labelChunks_getD (cs : List (List Char)) :
    ∀ (j i : Nat), i < cs.length →
      (labelChunks j cs).getD i [] = sectionLabel (j + i + 1) ++ cs.getD i [] := by
  induction cs with
  | nil => intro j i h; simp at h
  | cons c cs ih =>
    intro j i h
    cases i with
    | zero => simp [labelChunks]
    | succ i =>
      simp only [labelChunks, List.getD_cons_succ]
      have := ih (j + 1) i (by simpa using Nat.lt_of_succ_lt_succ h)
      rw [this]
      congr 2
      omega

/-- C6 counterexample to strictness: two chunks of the same manual at the same
cosine distance (similarity 1/2 each, above the 0.15 threshold) are both
returned, so the result similarities are not *strictly* descending. -/
def tieTable : List DChunk :=
  [⟨1, "A".toList, true, 1 / 2⟩, ⟨1, "B".toList, true, 1 / 2⟩]

theorem tieTable_match_eq :
    matchChunksByManual tieTable 1 20 (15 / 100) = tieTable := by
  unfold matchChunksByManual tieTable
  norm_num [List.filter, sortByDist, insertByDist]

theorem retrieval_strictly_descending_cex :
    ¬ List.Chain' (fun a b => sim b < sim a) (matchChunksByManual tieTable 1 20 (15 / 100)) ∧
    (matchChunksByManual tieTable 1 20 (15 / 100)).length = 2 := by
  rw [tieTable_match_eq]
  unfold tieTable
  constructor
  · intro h
    have h3 := (List.chain'_cons'.mp h).1 ⟨1, "B".toList, true, 1 / 2⟩ (by simp)
    norm_num [sim] at h3
  · rfl

/-- C6 amended: the chunks returned by the scoped nearest-neighbor search are in
(non-strictly) descending similarity order — ties are possible and then their
relative order is arbitrary — all similarities exceed the threshold, every
returned chunk belongs to the requested manual and has an embedding, and the
grounding labels are assigned sequentially in result order: the chunk at
0-based result position `i` is labeled `[Section i+1]`. -/
theorem retrieval_sorted_scoped_labeled (table : List DChunk) (manualId : Nat)
    (matchCount : Nat) (matchThreshold : ℚ)
    (i : Nat) (hi : i < (matchChunksByManual table manualId matchCount matchThreshold).length) :
    List.Chain' (fun a b => sim b ≤ sim a)
      (matchChunksByManual table manualId matchCount matchThreshold) ∧
    (∀ c ∈ matchChunksByManual table manualId matchCount matchThreshold,
      matchThreshold < sim c ∧ c.manualId = manualId ∧ c.embedded = true) ∧
    (labelChunks 0 ((matchChunksByManual table manualId matchCount matchThreshold).map
        (fun c => c.content))).getD i [] =
      sectionLabel (i + 1) ++
        ((matchChunksByManual table manualId matchCount matchThreshold).map
          (fun c => c.content)).getD i [] := by
  refine ⟨?_, ?_, ?_⟩
  · have hs := (chain'_sortByDist (table.filter (fun r =>
      r.manualId = manualId && r.embedded && decide (matchThreshold < 1 - r.dist)))).take
      matchCount
    exact hs.imp (fun a b hab => by
      unfold distLe at hab
      unfold sim
      linarith)
  · intro c hc
    have hmem : c ∈ table.filter (fun r =>
        r.manualId = manualId && r.embedded && decide (matchThreshold < 1 - r.dist)) :=
      mem_sortByDist.mp (List.take_subset _ _ hc)
    have hp := List.of_mem_filter hmem
    simp only [Bool.and_eq_true, decide_eq_true_eq] at hp
    exact ⟨hp.2, hp.1.1, hp.1.2⟩
  · have hl := labelChunks_getD
      ((matchChunksByManual table manualId matchCount matchThreshold).map (fun c => c.content))
      0 i (by rw [List.length_map]; exact hi)
    simpa using hl

/-- Witness for the amended C6 at the two-chunk tie table: position 0 gets
label `[Section 1]`. -/
theorem retrieval_sorted_scoped_labeled_witness :
    (0 < (matchChunksByManual tieTable 1 20 (15 / 100)).length) ∧
    (List.Chain' (fun a b => sim b ≤ sim a) (matchChunksByManual tieTable 1 20 (15 / 100)) ∧
     (∀ c ∈ matchChunksByManual tieTable 1 20 (15 / 100),
       (15 : ℚ) / 100 < sim c ∧ c.manualId = 1 ∧ c.embedded = true) ∧
     (labelChunks 0 ((matchChunksByManual tieTable 1 20 (15 / 100)).map
         (fun c => c.content))).getD 0 [] =
       sectionLabel (0 + 1) ++
         ((matchChunksByManual tieTable 1 20 (15 / 100)).map
           (fun c => c.content)).getD 0 []) :=
  ⟨by rw [tieTable_match_eq]; decide,
    retrieval_sorted_scoped_labeled tieTable 1 20 (15 / 100) 0
      (by rw [tieTable_match_eq]; decide)⟩

end Chat

/-! ## The client stream consumer (`sendMessage` SSE parse loop in the
`useChat` hook with page-image support)

The byte stream is modelled at the character level (the streaming text decoder
makes mid-codepoint splits transparent); `JSON.parse` composed with the field
lookups the client performs is the black-box function `parse`, returning for a
payload the record's `type` field, its `images` array (when present and an
array), its `pages` array (when present), and the `choices[0].delta.content`
string. -/

namespace UseChat

/-- The fields of a parsed stream record that the client inspects. -/
structure PRec where
  typeField : Option (List Char)
  imagesField : Option (List (List Char))
  pagesField : Option (List Chat.PageImage)
  deltaField : Option (List Char)
deriving DecidableEq

/-- A logical event applied to the running transcript. -/
inductive LEvent where
  | setImages (imgs : List (List Char))
  | appendDelta (d : List Char)
deriving DecidableEq

/-- The consumer's state: pending buffer, accumulated assistant text, the
page-image payload, and the sequence of logical events applied so far. -/
structure CState where
  textBuffer : List Char
  assistantContent : List Char
  pageImages : List (List Char)
  trace : List LEvent
deriving DecidableEq

def initSt : CState := ⟨[], [], [], []⟩

/-- `parsed.type === "page_images" && Array.isArray(parsed.images)`: the only
condition under which the client attaches a page-image payload. -/
def pageImagesOf (r : PRec) : Option (List (List Char)) :=
  match r.typeField, r.imagesField with
  | some t, some imgs => if t = "page_images".toList then some imgs else none
  | _, _ => none

/-- Processing of one successfully parsed record: attach a page-image payload,
or append a non-empty text delta, or do nothing. -/
def applyRec (st : CState) (r : PRec) : CState :=
  match pageImagesOf r with
  | some imgs =>
    { st with pageImages := imgs, trace := st.trace ++ [.setImages imgs] }
  | none =>
    match r.deltaField with
    | some d =>
      if d.isEmpty then st
      else
        { st with
            assistantContent := st.assistantContent ++ d,
            trace := st.trace ++ [.appendDelta d] }
    | none => st

/-- `if (line.endsWith("\r")) line = line.slice(0, -1)`. -/
def stripCr (l : List Char) : List Char :=
  if l.getLast? = some '\r' then l.dropLast else l

/-- What the parse loop decides about one line (after CR stripping): skip it
(comment, blank, non-data, or `[DONE]`), or parse its payload. -/
inductive LineView where
  | skip
  | record (jsonStr : List Char)
deriving DecidableEq

def classifyCore (line : List Char) : LineView :=
  if [':'].isPrefixOf line ∨ jsTrim line = [] then .skip
  else if ¬("data: ".toList.isPrefixOf line) then .skip
  else if jsTrim (line.drop 6) = "[DONE]".toList then .skip
  else .record (jsTrim (line.drop 6))

def classify (l0 : List Char) : LineView :=
  classifyCore (stripCr l0)

/-- The inner `while ((newlineIndex = textBuffer.indexOf("\n")) !== -1)` loop:
consume complete lines until none remains or a payload fails to parse, in which
case the (CR-stripped) line is re-buffered and the loop breaks.  The fuel only
bounds the recursion; the buffer length always suffices. -/
def innerLoopF (parse : List Char → Option PRec) : Nat → CState → CState
  | 0, st => st
  | fuel + 1, st =>
    match splitFirstLine st.textBuffer with
    | none => st
    | some (l0, rest) =>
      match classify l0 with
      | .skip => innerLoopF parse fuel { st with textBuffer := rest }
      | .record j =>
        match parse j with
        | some r => innerLoopF parse fuel { applyRec st r with textBuffer := rest }
        | none => { st with textBuffer := stripCr l0 ++ '\n' :: rest }

def innerLoopC (parse : List Char → Option PRec) (st : CState) : CState :=
  innerLoopF parse st.textBuffer.length st

/-- One `reader.read()`: append the decoded chunk and run the inner loop. -/
def feedChunk (parse : List Char → Option PRec) (st : CState) (chunk : List Char) :
    CState :=
  innerLoopC parse { st with textBuffer := st.textBuffer ++ chunk }

/-- One iteration of the final `for (let raw of textBuffer.split("\n"))` loop:
parse failures are ignored instead of re-buffered. -/
def finalLine (parse : List Char → Option PRec) (st : CState) (raw : List Char) :
    CState :=
  if raw.isEmpty then st
  else
    match classify raw with
    | .skip => st
    | .record j =>
      match parse j with
      | some r => applyRec st r
      | none => st

/-- The `if (textBuffer.trim())` post-loop pass over the remaining buffer. -/
def finalPass (parse : List Char → Option PRec) (st : CState) : CState :=
  if jsTrim st.textBuffer = [] then st
  else (splitOnNl st.textBuffer).foldl (finalLine parse) st

/-- The whole consumer run over the sequence of received network chunks. -/
def runStream (parse : List Char → Option PRec) (chunks : List (List Char)) : CState :=
  finalPass parse (chunks.foldl (feedChunk parse) initSt)

/-- What the claim compares across chunkings: the accumulated assistant text,
the page-image payload, and the sequence of logical events. -/
def observables (st : CState) : List Char × List (List Char) × List LEvent :=
  (st.assistantContent, st.pageImages, st.trace)

/-- The record shape the chat function actually emits:
`{type: "page_images", pages: [{url, pageNumber}]}` — a `pages` array and no
`images` array. -/
def serverPagesRec : PRec :=
  ⟨some "page_images".toList, none,
    some [Chat.mkPageImage "https://x.supabase.co".toList "m1".toList 3], none⟩

/-- The shape the client expects: `{type: "page_images", images: [...]}`. -/
def imagesShapeRec : PRec :=
  ⟨some "page_images".toList, some ["u1".toList], none, none⟩

def parse9 : List Char → Option PRec :=
  fun j => if j = "{pi}".toList then some serverPagesRec else none

/-- A stream holding the chat function's page-image event followed by the
terminator (the payload text is abbreviated through `parse9`). -/
def stream9 : List Char := "data: {pi}\n\ndata: [DONE]\n\n".toList

/-- C9: the client attaches a page-image payload only when the record carries an
`images` array (`{type: "page_images", images: [...]}`).  The shape the chat
function actually emits — `{pages: [{url, pageNumber}]}` — is ignored entirely:
feeding the emitted event through the consumer leaves the page-image payload
empty and applies no logical event, while the `images` shape does attach.  The
code therefore cannot satisfy the claim for the emitted shape. -/
theorem pages_shape_never_attached :
    pageImagesOf serverPagesRec = none ∧
    applyRec initSt serverPagesRec = initSt ∧
    (runStream parse9 [stream9]).pageImages = [] ∧
    (runStream parse9 [stream9]).trace = [] ∧
    pageImagesOf imagesShapeRec = some ["u1".toList] ∧
    (applyRec initSt imagesShapeRec).pageImages = ["u1".toList] ∧
    (applyRec initSt imagesShapeRec).trace = [LEvent.setImages ["u1".toList]] := by
  decide

/-! ### Invariance of the line classification under trailing carriage returns

A line re-buffered after a parse failure has lost one trailing `\r`; these
lemmas show the loop's decisions never depend on trailing carriage returns. -/

def dropTrailCr (l : List Char) : List Char :=
  dropTrail (fun c => c = '\r') l

theorem head?_dropWhile_false {α : Type} (p : α → Bool) (l : List α) :
    ∀ x, (l.dropWhile p).head? = some x → p x = false := by
  induction l with
  | nil => intro x h; simp [List.dropWhile] at h
  | cons a t ih =>
    intro x h
    by_cases hp : p a
    · rw [List.dropWhile_cons_of_pos hp] at h
      exact ih x h
    · rw [List.dropWhile_cons_of_neg hp] at h
      simp only [List.head?_cons, Option.some_inj] at h
      rw [← h]
      exact Bool.eq_false_iff.mpr hp

theorem dropTrailCr_decomp (u : List Char) :
    u = dropTrailCr u ++ List.replicate (u.length - (dropTrailCr u).length) '\r' ∧
    (dropTrailCr u).getLast? ≠ some '\r' := by
  have hsplit := List.takeWhile_append_dropWhile
    (p := fun c : Char => c = '\r') (l := u.reverse)
  have hrep : (u.reverse.takeWhile (fun c : Char => c = '\r')).reverse =
      List.replicate (u.reverse.takeWhile (fun c : Char => c = '\r')).length '\r' := by
    rw [List.eq_replicate_iff]
    refine ⟨by simp, ?_⟩
    intro b hb
    rw [List.mem_reverse] at hb
    have hpb := List.mem_takeWhile_imp hb
    simpa using hpb
  have hu : u = dropTrailCr u ++ (u.reverse.takeWhile (fun c : Char => c = '\r')).reverse := by
    conv_lhs => rw [← List.reverse_reverse u, ← hsplit]
    rw [List.reverse_append]
    rfl
  have hlen : (u.reverse.takeWhile (fun c : Char => c = '\r')).length =
      u.length - (dropTrailCr u).length := by
    have h1 : (u.reverse.takeWhile (fun c : Char => c = '\r')).length +
        (u.reverse.dropWhile (fun c : Char => c = '\r')).length = u.length := by
      have h := congrArg List.length hsplit
      rw [List.length_append, List.length_reverse] at h
      exact h
    have h2 : (dropTrailCr u).length =
        (u.reverse.dropWhile (fun c : Char => c = '\r')).length := by
      unfold dropTrailCr dropTrail
      exact List.length_reverse _
    omega
  constructor
  · conv_lhs => rw [hu]
    rw [hrep, hlen]
  · intro hcon
    have h3 : (dropTrailCr u).getLast? =
        (u.reverse.dropWhile (fun c : Char => c = '\r')).head? := by
      unfold dropTrailCr dropTrail
      exact List.getLast?_reverse _
    rw [h3] at hcon
    have := head?_dropWhile_false (fun c : Char => c = '\r') u.reverse '\r' hcon
    simp at this

theorem dropTrail_concat_pos {p : Char → Bool} {c : Char} (hc : p c = true)
    (x : List Char) : dropTrail p (x ++ [c]) = dropTrail p x := by
  unfold dropTrail
  rw [List.reverse_append]
  simp only [List.reverse_cons, List.reverse_nil, List.nil_append, List.cons_append,
    List.singleton_append]
  rw [List.dropWhile_cons_of_pos hc]

theorem dropTrailCr_eq_self {w : List Char} (hw : w.getLast? ≠ some '\r') :
    dropTrailCr w = w := by
  unfold dropTrailCr dropTrail
  cases hrev : w.reverse with
  | nil =>
    have : w = [] := by simpa using congrArg List.reverse hrev
    rw [this]
    rfl
  | cons h t =>
    have hh : w.getLast? = some h := by
      rw [← List.head?_reverse, hrev]
      rfl
    have hne : h ≠ '\r' := by
      intro he
      exact hw (by rw [hh, he])
    have hdw : List.dropWhile (fun c : Char => decide (c = '\r')) (h :: t) = h :: t := by
      simp [List.dropWhile_cons, hne]
    rw [hdw, ← hrev, List.reverse_reverse]

theorem dropTrailCr_replicate (w : List Char) (hw : w.getLast? ≠ some '\r') (k : Nat) :
    dropTrailCr (w ++ List.replicate k '\r') = w := by
  induction k with
  | zero => simpa using dropTrailCr_eq_self hw
  | succ k ih =>
    rw [List.replicate_succ', ← List.append_assoc]
    have : dropTrailCr ((w ++ List.replicate k '\r') ++ ['\r']) =
        dropTrailCr (w ++ List.replicate k '\r') :=
      dropTrail_concat_pos (by decide) _
    rw [this, ih]

theorem stripCr_concat (u : List Char) : stripCr (u ++ ['\r']) = u := by
  unfold stripCr
  rw [if_pos, List.dropLast_concat]
  rw [List.getLast?_concat]

theorem stripCr_of_ne {u : List Char} (h : ¬ u.getLast? = some '\r') :
    stripCr u = u := by
  unfold stripCr
  rw [if_neg h]

theorem isPrefixOf_concat_of_not_mem {p : List Char} {c : Char} (hc : c ∉ p) :
    ∀ v : List Char, p.isPrefixOf (v ++ [c]) = p.isPrefixOf v := by
  induction p with
  | nil => intro v; simp [List.isPrefixOf]
  | cons a q ih =>
    intro v
    cases v with
    | nil =>
      have hac : (a == c) = false := by
        rw [beq_eq_false_iff_ne]
        intro h
        exact hc (h ▸ List.mem_cons_self a q)
      simp [List.isPrefixOf, hac]
    | cons b w =>
      simp only [List.cons_append, List.isPrefixOf, List.append_eq]
      rw [ih (fun h => hc (List.mem_cons_of_mem a h)) w]

theorem dropWhile_append_chars (p : Char → Bool) (l1 l2 : List Char) :
    (l1 ++ l2).dropWhile p =
      if (l1.dropWhile p).isEmpty then l2.dropWhile p else l1.dropWhile p ++ l2 := by
  induction l1 with
  | nil => simp
  | cons a t ih =>
    by_cases hp : p a
    · simp only [List.cons_append, List.dropWhile_cons_of_pos hp]
      exact ih
    · simp [List.dropWhile_cons_of_neg hp, List.isEmpty]

theorem jsTrim_concat_ws {c : Char} (hc : isJsWs c = true) (v : List Char) :
    jsTrim (v ++ [c]) = jsTrim v := by
  unfold jsTrim
  rw [dropWhile_append_chars]
  split
  · rename_i hemp
    rw [List.isEmpty_iff] at hemp
    rw [hemp, List.dropWhile_cons_of_pos hc]
    rfl
  · exact dropTrail_concat_pos hc _

theorem classifyCore_concat_cr (v : List Char) :
    classifyCore (v ++ ['\r']) = classifyCore v := by
  have hcolon : ([':'].isPrefixOf (v ++ ['\r'])) = ([':'].isPrefixOf v) :=
    isPrefixOf_concat_of_not_mem (by decide) v
  have htrim : jsTrim (v ++ ['\r']) = jsTrim v := jsTrim_concat_ws (by decide) v
  unfold classifyCore
  rw [hcolon, htrim]
  by_cases h1 : ([':'].isPrefixOf v = true) ∨ jsTrim v = []
  · rw [if_pos h1, if_pos h1]
  · rw [if_neg h1, if_neg h1]
    have hdata : ("data: ".toList.isPrefixOf (v ++ ['\r'])) =
        ("data: ".toList.isPrefixOf v) :=
      isPrefixOf_concat_of_not_mem (by decide) v
    rw [hdata]
    by_cases h2 : "data: ".toList.isPrefixOf v = true
    · have hlen : 6 ≤ v.length := by
        have hpre := List.isPrefixOf_iff_prefix.mp h2
        have := hpre.length_le
        simpa using this
      have hdrop : (v ++ ['\r']).drop 6 = v.drop 6 ++ ['\r'] :=
        List.drop_append_of_le_length hlen
      rw [hdrop, jsTrim_concat_ws (by decide) (v.drop 6)]
    · rw [if_pos h2, if_pos h2]

theorem classifyCore_replicate (v : List Char) (k : Nat) :
    classifyCore (v ++ List.replicate k '\r') = classifyCore v := by
  induction k with
  | zero => simp
  | succ k ih =>
    rw [List.replicate_succ', ← List.append_assoc, classifyCore_concat_cr, ih]

/-- Classification never depends on the one CR strip: `classify` and
`classifyCore` agree on every line. -/
theorem classify_eq_core (y : List Char) : classify y = classifyCore y := by
  unfold classify
  by_cases h : y.getLast? = some '\r'
  · obtain ⟨hdecomp, hlast⟩ := dropTrailCr_decomp y
    have hk : y.length - (dropTrailCr y).length ≠ 0 := by
      intro h0
      rw [h0] at hdecomp
      simp at hdecomp
      exact hlast (by rw [← hdecomp]; exact h)
    rcases Nat.exists_eq_succ_of_ne_zero hk with ⟨k, hkk⟩
    rw [hkk] at hdecomp
    conv_rhs => rw [hdecomp]
    conv_lhs => rw [hdecomp]
    rw [List.replicate_succ', ← List.append_assoc, stripCr_concat]
    rw [classifyCore_concat_cr]
  · rw [stripCr_of_ne h]

/-! ### State equivalence up to trailing CRs of the buffer's first line -/

def normBuf (b : List Char) : List Char :=
  match splitFirstLine b with
  | none => b
  | some (l, r) => dropTrailCr l ++ '\n' :: r

/-- Two consumer states that agree on every observable and whose buffers agree
up to trailing carriage returns of the first pending line. -/
def SEquiv (s t : CState) : Prop :=
  s.assistantContent = t.assistantContent ∧ s.pageImages = t.pageImages ∧
    s.trace = t.trace ∧ normBuf s.textBuffer = normBuf t.textBuffer

theorem sequiv_refl (s : CState) : SEquiv s s := ⟨rfl, rfl, rfl, rfl⟩

theorem sequiv_of_eq {s t : CState} (h : s = t) : SEquiv s t := by
  rw [h]
  exact sequiv_refl t

theorem sequiv_symm {s t : CState} (h : SEquiv s t) : SEquiv t s :=
  ⟨h.1.symm, h.2.1.symm, h.2.2.1.symm, h.2.2.2.symm⟩

theorem sequiv_trans {s t u : CState} (h1 : SEquiv s t) (h2 : SEquiv t u) : SEquiv s u :=
  ⟨h1.1.trans h2.1, h1.2.1.trans h2.2.1, h1.2.2.1.trans h2.2.2.1,
    h1.2.2.2.trans h2.2.2.2⟩

theorem normBuf_none {b : List Char} (h : splitFirstLine b = none) : normBuf b = b := by
  unfold normBuf
  rw [h]

theorem normBuf_some {b l r : List Char} (h : splitFirstLine b = some (l, r)) :
    normBuf b = dropTrailCr l ++ '\n' :: r := by
  unfold normBuf
  rw [h]

theorem splitFirstLine_length {b l r : List Char} (h : splitFirstLine b = some (l, r)) :
    b.length = l.length + r.length + 1 := by
  obtain ⟨hb, _⟩ := splitFirstLine_some h
  rw [hb]
  simp [List.length_append]
  omega

/-! ### Unfolding and fuel-irrelevance of the inner parse loop -/

theorem innerLoopF_succ_none (parse : List Char → Option PRec) (f : Nat) (st : CState)
    (h : splitFirstLine st.textBuffer = none) : innerLoopF parse (f + 1) st = st := by
  simp only [innerLoopF, h]

theorem innerLoopF_succ_skip (parse : List Char → Option PRec) (f : Nat) (st : CState)
    {l0 rest : List Char} (h : splitFirstLine st.textBuffer = some (l0, rest))
    (hc : classify l0 = .skip) :
    innerLoopF parse (f + 1) st = innerLoopF parse f { st with textBuffer := rest } := by
  simp only [innerLoopF, h, hc]

theorem innerLoopF_succ_rec (parse : List Char → Option PRec) (f : Nat) (st : CState)
    {l0 rest j : List Char} {r : PRec}
    (h : splitFirstLine st.textBuffer = some (l0, rest))
    (hc : classify l0 = .record j) (hp : parse j = some r) :
    innerLoopF parse (f + 1) st =
      innerLoopF parse f { applyRec st r with textBuffer := rest } := by
  simp only [innerLoopF, h, hc, hp]

theorem innerLoopF_succ_stall (parse : List Char → Option PRec) (f : Nat) (st : CState)
    {l0 rest j : List Char}
    (h : splitFirstLine st.textBuffer = some (l0, rest))
    (hc : classify l0 = .record j) (hp : parse j = none) :
    innerLoopF parse (f + 1) st = { st with textBuffer := stripCr l0 ++ '\n' :: rest } := by
  simp only [innerLoopF, h, hc, hp]

theorem innerLoopF_irrel (parse : List Char → Option PRec) :
    ∀ f1 f2 st, st.textBuffer.length ≤ f1 → st.textBuffer.length ≤ f2 →
      innerLoopF parse f1 st = innerLoopF parse f2 st := by
  intro f1
  induction f1 with
  | zero =>
    intro f2 st h1 h2
    have hb : st.textBuffer = [] := List.length_eq_zero.mp (by omega)
    have hn : splitFirstLine st.textBuffer = none := by
      rw [hb]
      rfl
    cases f2 with
    | zero => rfl
    | succ g2 =>
      rw [innerLoopF_succ_none parse g2 st hn]
      rfl
  | succ g1 ih =>
    intro f2 st h1 h2
    cases hs : splitFirstLine st.textBuffer with
    | none =>
      cases f2 with
      | zero =>
        rw [innerLoopF_succ_none parse g1 st hs]
        rfl
      | succ g2 =>
        rw [innerLoopF_succ_none parse g1 st hs, innerLoopF_succ_none parse g2 st hs]
    | some lr =>
      rcases lr with ⟨l0, rest⟩
      have hlen := splitFirstLine_length hs
      have hf2 : f2 ≠ 0 := by omega
      rcases Nat.exists_eq_succ_of_ne_zero hf2 with ⟨g2, rfl⟩
      cases hc : classify l0 with
      | skip =>
        rw [innerLoopF_succ_skip parse g1 st hs hc, innerLoopF_succ_skip parse g2 st hs hc]
        exact ih g2 _ (by show rest.length ≤ g1; omega) (by show rest.length ≤ g2; omega)
      | record j =>
        cases hp : parse j with
        | some r =>
          rw [innerLoopF_succ_rec parse g1 st hs hc hp,
            innerLoopF_succ_rec parse g2 st hs hc hp]
          exact ih g2 _ (by show rest.length ≤ g1; omega) (by show rest.length ≤ g2; omega)
        | none =>
          rw [innerLoopF_succ_stall parse g1 st hs hc hp,
            innerLoopF_succ_stall parse g2 st hs hc hp]

theorem innerLoopC_none (parse : List Char → Option PRec) (st : CState)
    (h : splitFirstLine st.textBuffer = none) : innerLoopC parse st = st := by
  unfold innerLoopC
  cases hb : st.textBuffer with
  | nil => rfl
  | cons c t => exact innerLoopF_succ_none parse t.length st h

theorem innerLoopC_skip (parse : List Char → Option PRec) (st : CState)
    {l0 rest : List Char} (h : splitFirstLine st.textBuffer = some (l0, rest))
    (hc : classify l0 = .skip) :
    innerLoopC parse st = innerLoopC parse { st with textBuffer := rest } := by
  unfold innerLoopC
  rw [splitFirstLine_length h, innerLoopF_succ_skip parse _ st h hc]
  exact innerLoopF_irrel parse _ _ _
    (by show rest.length ≤ l0.length + rest.length; omega)
    (by show rest.length ≤ rest.length; omega)

theorem innerLoopC_rec (parse : List Char → Option PRec) (st : CState)
    {l0 rest j : List Char} {r : PRec}
    (h : splitFirstLine st.textBuffer = some (l0, rest))
    (hc : classify l0 = .record j) (hp : parse j = some r) :
    innerLoopC parse st = innerLoopC parse { applyRec st r with textBuffer := rest } := by
  unfold innerLoopC
  rw [splitFirstLine_length h, innerLoopF_succ_rec parse _ st h hc hp]
  exact innerLoopF_irrel parse _ _ _
    (by show rest.length ≤ l0.length + rest.length; omega)
    (by show rest.length ≤ rest.length; omega)

theorem innerLoopC_stall (parse : List Char → Option PRec) (st : CState)
    {l0 rest j : List Char}
    (h : splitFirstLine st.textBuffer = some (l0, rest))
    (hc : classify l0 = .record j) (hp : parse j = none) :
    innerLoopC parse st = { st with textBuffer := stripCr l0 ++ '\n' :: rest } := by
  unfold innerLoopC
  rw [splitFirstLine_length h]
  exact innerLoopF_succ_stall parse _ st h hc hp

/-! ### Feeding chunks one by one agrees — up to trailing CRs — with feeding
their concatenation -/

theorem stripCr_mem {x : Char} {l : List Char} (h : x ∈ stripCr l) : x ∈ l := by
  unfold stripCr at h
  split at h
  · exact List.dropLast_subset l h
  · exact h

theorem mem_dropTrailCr {x : Char} {l : List Char} (h : x ∈ dropTrailCr l) : x ∈ l := by
  obtain ⟨hdecomp, _⟩ := dropTrailCr_decomp l
  rw [hdecomp]
  exact List.mem_append_left _ h

theorem classify_stripCr (l : List Char) : classify (stripCr l) = classify l := by
  rw [classify_eq_core (stripCr l)]
  rfl

theorem dropTrailCr_stripCr (l : List Char) : dropTrailCr (stripCr l) = dropTrailCr l := by
  unfold stripCr
  split
  · rename_i h
    have hne : l ≠ [] := by
      intro h0
      rw [h0] at h
      simp at h
    have hg : l.getLast hne = '\r' := by
      have hq := List.getLast?_eq_getLast l hne
      rw [hq] at h
      exact Option.some_inj.mp h
    have hl : l.dropLast ++ ['\r'] = l := by
      rw [← hg]
      exact List.dropLast_append_getLast hne
    conv_rhs => rw [← hl]
    exact (dropTrail_concat_pos (by decide) l.dropLast).symm
  · rfl

theorem applyRec_buf (st : CState) (r : PRec) (B : List Char) :
    applyRec { st with textBuffer := B } r = { applyRec st r with textBuffer := B } := by
  cases hpi : pageImagesOf r with
  | some imgs => simp only [applyRec, hpi]
  | none =>
    cases hd : r.deltaField with
    | none => simp only [applyRec, hpi, hd]
    | some d =>
      simp only [applyRec, hpi, hd]
      split
      · rfl
      · rfl

theorem innerLoopC_comp (parse : List Char → Option PRec) :
    ∀ (n : Nat) (st : CState), st.textBuffer.length ≤ n → ∀ y : List Char,
      SEquiv
        (innerLoopC parse
          { innerLoopC parse st with textBuffer := (innerLoopC parse st).textBuffer ++ y })
        (innerLoopC parse { st with textBuffer := st.textBuffer ++ y }) := by
  intro n
  induction n with
  | zero =>
    intro st hn y
    have hb : st.textBuffer = [] := List.length_eq_zero.mp (by omega)
    have hnone : splitFirstLine st.textBuffer = none := by
      rw [hb]
      rfl
    rw [innerLoopC_none parse st hnone]
    exact sequiv_refl _
  | succ n ih =>
    intro st hn y
    cases hs : splitFirstLine st.textBuffer with
    | none =>
      rw [innerLoopC_none parse st hs]
      exact sequiv_refl _
    | some lr =>
      rcases lr with ⟨l0, rest⟩
      have hlen := splitFirstLine_length hs
      have hsy : splitFirstLine (st.textBuffer ++ y) = some (l0, rest ++ y) :=
        splitFirstLine_append hs y
      cases hc : classify l0 with
      | skip =>
        rw [innerLoopC_skip parse st hs hc]
        have h1 := ih { st with textBuffer := rest } (by show rest.length ≤ n; omega) y
        have h2 : innerLoopC parse { st with textBuffer := st.textBuffer ++ y } =
            innerLoopC parse { st with textBuffer := rest ++ y } :=
          innerLoopC_skip parse { st with textBuffer := st.textBuffer ++ y } hsy hc
        exact sequiv_trans h1 (sequiv_of_eq h2.symm)
      | record j =>
        cases hp : parse j with
        | some r =>
          rw [innerLoopC_rec parse st hs hc hp]
          have h1 := ih { applyRec st r with textBuffer := rest }
            (by show rest.length ≤ n; omega) y
          have h2 : innerLoopC parse { st with textBuffer := st.textBuffer ++ y } =
              innerLoopC parse
                { applyRec { st with textBuffer := st.textBuffer ++ y } r with
                    textBuffer := rest ++ y } :=
            innerLoopC_rec parse { st with textBuffer := st.textBuffer ++ y } hsy hc hp
          rw [applyRec_buf st r (st.textBuffer ++ y)] at h2
          exact sequiv_trans h1 (sequiv_of_eq h2.symm)
        | none =>
          rw [innerLoopC_stall parse st hs hc hp]
          have hnl : '\n' ∉ l0 := (splitFirstLine_some hs).2
          have hnl1 : '\n' ∉ stripCr l0 := fun hm => hnl (stripCr_mem hm)
          have hnl2 : '\n' ∉ stripCr (stripCr l0) := fun hm => hnl1 (stripCr_mem hm)
          have hb1 : splitFirstLine (stripCr l0 ++ '\n' :: rest) = some (stripCr l0, rest) :=
            splitFirstLine_build _ _ hnl1
          have hb1y : splitFirstLine ((stripCr l0 ++ '\n' :: rest) ++ y) =
              some (stripCr l0, rest ++ y) := splitFirstLine_append hb1 y
          have hc1 : classify (stripCr l0) = .record j := by
            rw [classify_stripCr]
            exact hc
          have hL : innerLoopC parse
              { ({ st with textBuffer := stripCr l0 ++ '\n' :: rest } : CState) with
                  textBuffer := (stripCr l0 ++ '\n' :: rest) ++ y } =
              { st with textBuffer := stripCr (stripCr l0) ++ '\n' :: (rest ++ y) } :=
            innerLoopC_stall parse _ hb1y hc1 hp
          have hR : innerLoopC parse { st with textBuffer := st.textBuffer ++ y } =
              { st with textBuffer := stripCr l0 ++ '\n' :: (rest ++ y) } :=
            innerLoopC_stall parse _ hsy hc hp
          rw [hL, hR]
          refine ⟨rfl, rfl, rfl, ?_⟩
          show normBuf (stripCr (stripCr l0) ++ '\n' :: (rest ++ y)) =
            normBuf (stripCr l0 ++ '\n' :: (rest ++ y))
          rw [normBuf_some (splitFirstLine_build _ _ hnl2),
            normBuf_some (splitFirstLine_build _ _ hnl1),
            dropTrailCr_stripCr, dropTrailCr_stripCr]

theorem foldl_feedChunk (parse : List Char → Option PRec) (cs : List (List Char)) :
    ∀ st : CState,
      SEquiv (cs.foldl (feedChunk parse) (innerLoopC parse st))
        (innerLoopC parse { st with textBuffer := st.textBuffer ++ cs.flatten }) := by
  induction cs with
  | nil =>
    intro st
    simp only [List.foldl_nil, List.flatten_nil]
    exact sequiv_of_eq (by rw [List.append_nil])
  | cons c cs ih =>
    intro st
    simp only [List.foldl_cons, List.flatten_cons]
    have hfeed : feedChunk parse (innerLoopC parse st) c =
        innerLoopC parse
          { innerLoopC parse st with
              textBuffer := (innerLoopC parse st).textBuffer ++ c } := rfl
    rw [hfeed]
    have h1 := ih { innerLoopC parse st with
      textBuffer := (innerLoopC parse st).textBuffer ++ c }
    have hassoc : (({ innerLoopC parse st with
        textBuffer := (innerLoopC parse st).textBuffer ++ c } : CState).textBuffer ++
          cs.flatten) = (innerLoopC parse st).textBuffer ++ (c ++ cs.flatten) := by
      show ((innerLoopC parse st).textBuffer ++ c) ++ cs.flatten =
        (innerLoopC parse st).textBuffer ++ (c ++ cs.flatten)
      rw [List.append_assoc]
    rw [hassoc] at h1
    have h2 := innerLoopC_comp parse st.textBuffer.length st (le_refl _) (c ++ cs.flatten)
    exact sequiv_trans h1 h2

theorem runStream_canonical (parse : List Char → Option PRec) (chunks : List (List Char)) :
    SEquiv (chunks.foldl (feedChunk parse) initSt)
      (innerLoopC parse { initSt with textBuffer := chunks.flatten }) := by
  have h := foldl_feedChunk parse chunks initSt
  rw [innerLoopC_none parse initSt (by rfl)] at h
  have hbuf : ({ initSt with textBuffer := initSt.textBuffer ++ chunks.flatten } : CState) =
      { initSt with textBuffer := chunks.flatten } := by
    show ({ initSt with textBuffer := [] ++ chunks.flatten } : CState) = _
    rw [List.nil_append]
  rw [hbuf] at h
  exact h

/-! ### The final pass respects the equivalence -/

def obsEq (s t : CState) : Prop :=
  s.assistantContent = t.assistantContent ∧ s.pageImages = t.pageImages ∧
    s.trace = t.trace

theorem applyRec_obsEq {s t : CState} (h : obsEq s t) (r : PRec) :
    obsEq (applyRec s r) (applyRec t r) := by
  cases hpi : pageImagesOf r with
  | some imgs =>
    simp only [applyRec, hpi]
    exact ⟨h.1, rfl, by rw [h.2.2]⟩
  | none =>
    cases hd : r.deltaField with
    | none =>
      simp only [applyRec, hpi, hd]
      exact h
    | some d =>
      simp only [applyRec, hpi, hd]
      split
      · exact h
      · exact ⟨by rw [h.1], h.2.1, by rw [h.2.2]⟩

theorem finalLine_obsEq (parse : List Char → Option PRec) {s t : CState} (h : obsEq s t)
    (raw : List Char) : obsEq (finalLine parse s raw) (finalLine parse t raw) := by
  unfold finalLine
  split
  · exact h
  · cases hc : classify raw with
    | skip =>
      simp only [hc]
      exact h
    | record j =>
      simp only [hc]
      cases hp : parse j with
      | some r =>
        simp only [hp]
        exact applyRec_obsEq h r
      | none =>
        simp only [hp]
        exact h

theorem foldl_finalLine_obsEq (parse : List Char → Option PRec) (raws : List (List Char)) :
    ∀ {s t : CState}, obsEq s t →
      obsEq (raws.foldl (finalLine parse) s) (raws.foldl (finalLine parse) t) := by
  induction raws with
  | nil => intro s t h; exact h
  | cons raw raws ih =>
    intro s t h
    simp only [List.foldl_cons]
    exact ih (finalLine_obsEq parse h raw)

theorem classify_append_crs (v : List Char) (k : Nat) :
    classify (v ++ List.replicate k '\r') = classify v := by
  rw [classify_eq_core, classify_eq_core, classifyCore_replicate]

theorem finalLine_replicate_cr (parse : List Char → Option PRec) (st : CState)
    (w : List Char) (k : Nat) :
    finalLine parse st (w ++ List.replicate k '\r') = finalLine parse st w := by
  by_cases hw : w = []
  · subst hw
    cases k with
    | zero => simp
    | succ k =>
      simp only [List.nil_append]
      have hLHS : finalLine parse st (List.replicate (k + 1) '\r') = st := by
        unfold finalLine
        rw [if_neg (by simp)]
        have hcl : classify (List.replicate (k + 1) '\r') = LineView.skip := by
          have h1 := classify_append_crs [] (k + 1)
          simp only [List.nil_append] at h1
          rw [h1]
          decide
        rw [hcl]
      rw [hLHS]
      rfl
  · have h1 : ¬ ((w ++ List.replicate k '\r').isEmpty = true) := by
      cases w with
      | nil => exact absurd rfl hw
      | cons c t => simp
    have h2 : ¬ (w.isEmpty = true) := by
      cases w with
      | nil => exact absurd rfl hw
      | cons c t => simp
    unfold finalLine
    rw [if_neg h1, if_neg h2, classify_append_crs w k]

theorem dropTrail_eq_nil_iff (p : Char → Bool) (x : List Char) :
    dropTrail p x = [] ↔ ∀ c ∈ x, p c = true := by
  unfold dropTrail
  rw [List.reverse_eq_nil_iff, List.dropWhile_eq_nil_iff]
  constructor
  · intro h c hc
    exact h c (List.mem_reverse.mpr hc)
  · intro h c hc
    exact h c (List.mem_reverse.mp hc)

theorem jsTrim_eq_nil_iff (x : List Char) :
    jsTrim x = [] ↔ ∀ c ∈ x, isJsWs c = true := by
  unfold jsTrim
  rw [dropTrail_eq_nil_iff]
  constructor
  · intro h c hc
    have hsplit : c ∈ x.takeWhile isJsWs ++ x.dropWhile isJsWs := by
      rw [List.takeWhile_append_dropWhile]
      exact hc
    rcases List.mem_append.mp hsplit with h1 | h1
    · exact List.mem_takeWhile_imp h1
    · exact h c h1
  · intro h c hc
    have hmem : c ∈ x.takeWhile isJsWs ++ x.dropWhile isJsWs :=
      List.mem_append_right _ hc
    rw [List.takeWhile_append_dropWhile] at hmem
    exact h c hmem

theorem allWs_line (w r : List Char) (k : Nat) :
    (∀ c ∈ (w ++ List.replicate k '\r') ++ '\n' :: r, isJsWs c = true) ↔
      ((∀ c ∈ w, isJsWs c = true) ∧ (∀ c ∈ r, isJsWs c = true)) := by
  constructor
  · intro h
    exact ⟨fun c hc => h c (by simp [hc]), fun c hc => h c (by simp [hc])⟩
  · intro h c hc
    simp only [List.mem_append, List.mem_cons, List.mem_replicate] at hc
    rcases hc with (hc | hc) | hc | hc
    · exact h.1 c hc
    · rw [hc.2]
      decide
    · rw [hc]
      decide
    · exact h.2 c hc

theorem splitOnNl_append_nl (x r : List Char) (hx : '\n' ∉ x) :
    splitOnNl (x ++ '\n' :: r) = x :: splitOnNl r := by
  induction x with
  | nil => simp [splitOnNl]
  | cons c t ih =>
    have hc : ¬ c = '\n' := fun h => hx (by rw [h]; exact List.mem_cons_self _ _)
    have ht : '\n' ∉ t := fun h => hx (List.mem_cons_of_mem c h)
    simp only [List.cons_append, splitOnNl, List.append_eq]
    rw [if_neg hc, ih ht]

theorem finalPass_obs (parse : List Char → Option PRec) {s t : CState}
    (h : SEquiv s t) :
    observables (finalPass parse s) = observables (finalPass parse t) := by
  obtain ⟨h1, h2, h3, h4⟩ := h
  have hobs : obsEq s t := ⟨h1, h2, h3⟩
  cases hsn : splitFirstLine s.textBuffer with
  | none =>
    cases htn : splitFirstLine t.textBuffer with
    | none =>
      have hb : s.textBuffer = t.textBuffer := by
        rw [← normBuf_none hsn, ← normBuf_none htn]
        exact h4
      unfold finalPass
      rw [hb]
      split
      · unfold observables
        rw [h1, h2, h3]
      · have hfold := foldl_finalLine_obsEq parse (splitOnNl t.textBuffer) hobs
        unfold observables
        rw [hfold.1, hfold.2.1, hfold.2.2]
    | some lr2 =>
      exfalso
      rcases lr2 with ⟨l2, r2⟩
      have hsb := normBuf_none hsn
      have htb := normBuf_some htn
      have hmem : '\n' ∈ s.textBuffer := by
        rw [← hsb, h4, htb]
        simp
      exact (splitFirstLine_none.mp hsn) hmem
  | some lr1 =>
    rcases lr1 with ⟨l1, r1⟩
    cases htn : splitFirstLine t.textBuffer with
    | none =>
      exfalso
      have hsb := normBuf_some hsn
      have htb := normBuf_none htn
      have hmem : '\n' ∈ t.textBuffer := by
        rw [← htb, ← h4, hsb]
        simp
      exact (splitFirstLine_none.mp htn) hmem
    | some lr2 =>
      rcases lr2 with ⟨l2, r2⟩
      have hsb := normBuf_some hsn
      have htb := normBuf_some htn
      have hnl1 : '\n' ∉ l1 := (splitFirstLine_some hsn).2
      have hnl2 : '\n' ∉ l2 := (splitFirstLine_some htn).2
      have hd1 : '\n' ∉ dropTrailCr l1 := fun hm => hnl1 (mem_dropTrailCr hm)
      have hd2 : '\n' ∉ dropTrailCr l2 := fun hm => hnl2 (mem_dropTrailCr hm)
      have heqn : dropTrailCr l1 = dropTrailCr l2 ∧ r1 = r2 := by
        have e1 := splitFirstLine_build (dropTrailCr l1) r1 hd1
        have e2 := splitFirstLine_build (dropTrailCr l2) r2 hd2
        have hnn : dropTrailCr l1 ++ '\n' :: r1 = dropTrailCr l2 ++ '\n' :: r2 := by
          rw [← hsb, ← htb]
          exact h4
        rw [hnn, e2] at e1
        injection e1 with e1p
        injection e1p with ea eb
        exact ⟨ea.symm, eb.symm⟩
      obtain ⟨hw, hr⟩ := heqn
      obtain ⟨hdec1, hlast1⟩ := dropTrailCr_decomp l1
      obtain ⟨hdec2, hlast2⟩ := dropTrailCr_decomp l2
      have hbs : s.textBuffer =
          (dropTrailCr l1 ++ List.replicate (l1.length - (dropTrailCr l1).length) '\r') ++
            '\n' :: r1 := by
        conv_lhs => rw [(splitFirstLine_some hsn).1]
        rw [← hdec1]
      have hbt : t.textBuffer =
          (dropTrailCr l1 ++ List.replicate (l2.length - (dropTrailCr l2).length) '\r') ++
            '\n' :: r1 := by
        conv_lhs => rw [(splitFirstLine_some htn).1]
        rw [hw, hr, ← hdec2]
      have hguard : (jsTrim s.textBuffer = []) ↔ (jsTrim t.textBuffer = []) := by
        rw [hbs, hbt, jsTrim_eq_nil_iff, jsTrim_eq_nil_iff, allWs_line, allWs_line]
      unfold finalPass
      by_cases hg : jsTrim s.textBuffer = []
      · rw [if_pos hg, if_pos (hguard.mp hg)]
        unfold observables
        rw [h1, h2, h3]
      · rw [if_neg hg, if_neg (fun hh => hg (hguard.mpr hh))]
        have hnomem1 : '\n' ∉ dropTrailCr l1 ++
            List.replicate (l1.length - (dropTrailCr l1).length) '\r' := by
          intro hm
          rcases List.mem_append.mp hm with hm | hm
          · exact hd1 hm
          · rw [List.mem_replicate] at hm
            exact absurd hm.2 (by decide)
        have hnomem2 : '\n' ∉ dropTrailCr l1 ++
            List.replicate (l2.length - (dropTrailCr l2).length) '\r' := by
          intro hm
          rcases List.mem_append.mp hm with hm | hm
          · exact hd1 hm
          · rw [List.mem_replicate] at hm
            exact absurd hm.2 (by decide)
        have hsplit1 : splitOnNl s.textBuffer =
            (dropTrailCr l1 ++ List.replicate (l1.length - (dropTrailCr l1).length) '\r') ::
              splitOnNl r1 := by
          rw [hbs]
          exact splitOnNl_append_nl _ _ hnomem1
        have hsplit2 : splitOnNl t.textBuffer =
            (dropTrailCr l1 ++ List.replicate (l2.length - (dropTrailCr l2).length) '\r') ::
              splitOnNl r1 := by
          rw [hbt]
          exact splitOnNl_append_nl _ _ hnomem2
        rw [hsplit1, hsplit2]
        simp only [List.foldl_cons]
        rw [finalLine_replicate_cr parse s (dropTrailCr l1) _,
          finalLine_replicate_cr parse t (dropTrailCr l1) _]
        have hline := finalLine_obsEq parse hobs (dropTrailCr l1)
        have hfold := foldl_finalLine_obsEq parse (splitOnNl r1) hline
        unfold observables
        rw [hfold.1, hfold.2.1, hfold.2.2]

/-- C8: the client SSE parser is invariant under re-chunking of the byte
stream.  For every parse function and every two ways of splitting the same
underlying character sequence into read-sized pieces — including splits
mid-line and mid-JSON-payload — the consumer produces the same sequence of
logical events, hence the same accumulated assistant text and the same
page-image payload. -/
theorem sse_parser_rechunk_invariant (parse : List Char → Option PRec)
    (A B : List (List Char)) (h : A.flatten = B.flatten) :
    observables (runStream parse A) = observables (runStream parse B) := by
  have hA := runStream_canonical parse A
  have hB := runStream_canonical parse B
  rw [h] at hA
  unfold runStream
  exact finalPass_obs parse (sequiv_trans hA (sequiv_symm hB))

def parse8 : List Char → Option PRec :=
  fun j => if j = "{x}".toList then some ⟨none, none, none, some "hi".toList⟩ else none

/-- Witness for C8: the same bytes split after `"da"` — mid-line — yield the
same observables as the unsplit stream. -/
theorem sse_parser_rechunk_invariant_witness :
    (["data: {x}\n".toList] : List (List Char)).flatten =
      (["da".toList, "ta: {x}\n".toList] : List (List Char)).flatten ∧
    observables (runStream parse8 ["data: {x}\n".toList]) =
      observables (runStream parse8 ["da".toList, "ta: {x}\n".toList]) :=
  ⟨by decide, sse_parser_rechunk_invariant parse8 _ _ (by decide)⟩

end UseChat

/-! ## The fixed-window chunker variant (`chunkText` in the admin ingest page)

Sliding window with step `chunk.length - overlap` (or the whole chunk when it
is not longer than the overlap), preferring to cut at the last ". " or "\n\n"
past half the window.  The loop is modelled with explicit fuel; the claim is
that fuel `text.length` always suffices because every iteration advances the
start position by at least one character. -/

namespace Admin

/-- `text.slice(start, Math.min(start + chunkSize, text.length))`. -/
def baseWindow (text : List Char) (chunkSize : Nat) (start : Nat) : List Char :=
  (text.drop start).take (min (start + chunkSize) text.length - start)

/-- `Math.max(chunk.lastIndexOf(". "), chunk.lastIndexOf("\n\n"))`. -/
def breakPointW (text : List Char) (chunkSize : Nat) (start : Nat) : Int :=
  max (jsLastIndexOf ['.', ' '] (baseWindow text chunkSize start))
    (jsLastIndexOf ['\n', '\n'] (baseWindow text chunkSize start))

/-- The window actually used: re-cut to `slice(start, start + breakPoint + 1)`
when the break point lies past half the window and the window did not reach the
end of the text. -/
def windowChunkAt (text : List Char) (chunkSize : Nat) (start : Nat) : List Char :=
  if min (start + chunkSize) text.length < text.length then
    if (chunkSize : Int) < 2 * breakPointW text chunkSize start then
      (text.drop start).take ((breakPointW text chunkSize start).toNat + 1)
    else baseWindow text chunkSize start
  else baseWindow text chunkSize start

/-- `start += chunk.length > overlap ? chunk.length - overlap : chunk.length`. -/
def windowStep (text : List Char) (chunkSize overlap : Nat) (start : Nat) : Nat :=
  if overlap < (windowChunkAt text chunkSize start).length then
    (windowChunkAt text chunkSize start).length - overlap
  else (windowChunkAt text chunkSize start).length

/-- The `while (start < text.length)` loop with explicit fuel: emit the trimmed
window when longer than 50 characters and advance by the step. -/
def chunkAux (text : List Char) (chunkSize overlap : Nat) :
    Nat → Nat → List (List Char)
  | 0, _ => []
  | fuel + 1, start =>
    if start < text.length then
      (if 50 < (jsTrim (windowChunkAt text chunkSize start)).length then
        [jsTrim (windowChunkAt text chunkSize start)]
       else []) ++
        chunkAux text chunkSize overlap fuel (start + windowStep text chunkSize overlap start)
    else []

/-- The fixed-window `chunkText(text, chunkSize, overlap)` of the admin ingest
page. -/
def chunkText (text : List Char) (chunkSize overlap : Nat) : List (List Char) :=
  chunkAux text chunkSize overlap text.length 0

theorem windowChunkAt_length_pos (text : List Char) (chunkSize start : Nat)
    (h : start < text.length) (hcs : 1 ≤ chunkSize) :
    1 ≤ (windowChunkAt text chunkSize start).length := by
  have hdrop : (text.drop start).length = text.length - start := List.length_drop _ _
  have hbase : 1 ≤ (baseWindow text chunkSize start).length := by
    unfold baseWindow
    rw [List.length_take, hdrop]
    have h1 : start + 1 ≤ min (start + chunkSize) text.length := by omega
    omega
  unfold windowChunkAt
  split
  · split
    · rw [List.length_take, hdrop]
      omega
    · exact hbase
  · exact hbase

theorem windowStep_pos (text : List Char) (chunkSize overlap start : Nat)
    (h : start < text.length) (hcs : 1 ≤ chunkSize) :
    1 ≤ windowStep text chunkSize overlap start := by
  have hlen := windowChunkAt_length_pos text chunkSize start h hcs
  unfold windowStep
  split
  · omega
  · omega

theorem chunkAux_fuel_irrel (text : List Char) (chunkSize overlap : Nat)
    (hcs : 1 ≤ chunkSize) :
    ∀ f1 f2 start : Nat, text.length ≤ f1 + start → text.length ≤ f2 + start →
      chunkAux text chunkSize overlap f1 start = chunkAux text chunkSize overlap f2 start := by
  intro f1
  induction f1 with
  | zero =>
    intro f2 start h1 h2
    have hns : ¬ start < text.length := by omega
    cases f2 with
    | zero => rfl
    | succ g2 =>
      simp only [chunkAux]
      rw [if_neg hns]
  | succ g1 ih =>
    intro f2 start h1 h2
    by_cases hs : start < text.length
    · have hf2 : f2 ≠ 0 := by omega
      rcases Nat.exists_eq_succ_of_ne_zero hf2 with ⟨g2, rfl⟩
      simp only [chunkAux]
      rw [if_pos hs, if_pos hs]
      have hstep := windowStep_pos text chunkSize overlap start hs hcs
      have := ih g2 (start + windowStep text chunkSize overlap start)
        (by omega) (by omega)
      rw [this]
    · cases f2 with
      | zero =>
        simp only [chunkAux]
        rw [if_neg hs]
      | succ g2 =>
        simp only [chunkAux]
        rw [if_neg hs, if_neg hs]

/-- C10: the fixed-window chunker terminates for every input text, every
`chunkSize ≥ 1` and every `overlap ≥ 0`: each loop iteration advances the start
position by at least one character, so fuel `text.length` suffices — every
larger fuel computes the same list, i.e. the loop runs at most
`text.length` iterations. -/
theorem window_chunker_terminates (text : List Char) (chunkSize overlap : Nat)
    (hcs : 1 ≤ chunkSize) :
    (∀ start, start < text.length → 1 ≤ windowStep text chunkSize overlap start) ∧
    (∀ fuel, text.length ≤ fuel →
      chunkAux text chunkSize overlap fuel 0 = chunkText text chunkSize overlap) := by
  constructor
  · intro start h
    exact windowStep_pos text chunkSize overlap start h hcs
  · intro fuel hf
    exact chunkAux_fuel_irrel text chunkSize overlap hcs fuel text.length 0
      (by omega) (by omega)

/-- Witness for C10 at a concrete input: a nine-character text with
`chunkSize = 3`, `overlap = 1`; any fuel of at least the text length computes
`chunkText`, and the first step advances by at least one character. -/
theorem window_chunker_terminates_witness :
    (1 ≤ 3 ∧ ("ab.cd fgh".toList).length ≤ 16 ∧ 0 < ("ab.cd fgh".toList).length) ∧
    chunkAux "ab.cd fgh".toList 3 1 16 0 = Admin.chunkText "ab.cd fgh".toList 3 1 ∧
    1 ≤ windowStep "ab.cd fgh".toList 3 1 0 :=
  ⟨⟨by decide, by decide, by decide⟩,
    (window_chunker_terminates "ab.cd fgh".toList 3 1 (by decide)).2 16 (by decide),
    (window_chunker_terminates "ab.cd fgh".toList 3 1 (by decide)).1 0 (by decide)⟩

end Admin

end RagPipeline
